import Mathlib

/-!
Verification of the CONL configuration-format core of the `usps` crate.

The development shallowly embeds, over `List Char`, the CONL parser
(`parse_conl` in `src/generate.rs`), the stamp-metadata serializer
(`ToConl::to_conl`, `escape_value`, `format_multiline` in `src/conl_ser.rs`),
the generator-side multi-line formatter (`format_multiline_text` and
`escape_conl_value` in `src/main.rs`) and the `forever` field of the schema
mapping (`load_stamp` in `src/generate.rs`).  Strings are represented as
`List Char` so that every operation is structurally computable; Rust's
byte-lexicographic order on UTF-8 strings coincides with the
code-point-lexicographic order modelled here.
-/

/-- Strings are modelled as lists of characters. -/
abbrev Str := List Char

/-- Lexicographic order on character lists, mirroring Rust's `Ord for str`
(byte-lexicographic on UTF-8, which equals code-point-lexicographic order). -/
def ltL : Str → Str → Bool
  | [], [] => false
  | [], _ :: _ => true
  | _ :: _, [] => false
  | a :: as, b :: bs => if a < b then true else if b < a then false else ltL as bs

/-- Rust `char::is_whitespace`: the Unicode `White_Space` property, i.e.
U+0009-U+000D, U+0020, U+0085, U+00A0, U+1680, U+2000-U+200A, U+2028,
U+2029, U+202F, U+205F and U+3000. -/
def isRustWhitespace (c : Char) : Bool :=
  (0x9 ≤ c.toNat && c.toNat ≤ 0xd) || c = ' ' || c = '\u0085' || c = '\u00A0'
    || c = '\u1680' || (0x2000 ≤ c.toNat && c.toNat ≤ 0x200A)
    || c = '\u2028' || c = '\u2029' || c = '\u202F' || c = '\u205F' || c = '\u3000'

/-- Rust `str::trim` (both ends): strip leading and trailing Unicode
whitespace. -/
def trimL (s : Str) : Str :=
  ((s.dropWhile isRustWhitespace).reverse.dropWhile isRustWhitespace).reverse

/-- Rust `str::trim_end`. -/
def trimEndL (s : Str) : Str :=
  (s.reverse.dropWhile isRustWhitespace).reverse

/-- Rust `str::strip_prefix`. -/
def stripPrefixL (pre s : Str) : Option Str :=
  if pre.isPrefixOf s then some (s.drop pre.length) else none

/-- Rust `str::contains` for a literal substring needle. -/
def containsSub (needle : Str) : Str → Bool
  | [] => needle.isEmpty
  | c :: cs => needle.isPrefixOf (c :: cs) || containsSub needle cs

/-- Rust `str::split_once`: split at the first occurrence of `sep`. -/
def splitOnceL (sep : Str) : Str → Option (Str × Str)
  | [] => if sep.isEmpty then some ([], []) else none
  | c :: cs =>
    if sep.isPrefixOf (c :: cs) then some ([], (c :: cs).drop sep.length)
    else (splitOnceL sep cs).map (fun p => (c :: p.1, p.2))

/-- Rust `str::split_inclusive('\n')`: split after every newline, each piece
keeping its terminator; the empty input yields no pieces. -/
def splitInclNl : Str → List Str
  | [] => []
  | c :: cs =>
    if c = '\n' then ['\n'] :: splitInclNl cs
    else
      match splitInclNl cs with
      | [] => [[c]]
      | p :: ps => (c :: p) :: ps

/-- The per-piece map inside Rust `str::lines`: strip one trailing `'\n'`,
then one trailing `'\r'` only when the `'\n'` was present. -/
def rustLineMap (l : Str) : Str :=
  if l.getLast? = some '\n' then
    if l.dropLast.getLast? = some '\r' then l.dropLast.dropLast else l.dropLast
  else l

/-- Rust `str::lines`: split inclusively at `'\n'`, then strip the `"\n"` or
`"\r\n"` terminator of each piece; a final piece with no terminator is kept
as is (in particular a lone final `'\r'` survives). -/
def linesL (s : Str) : List Str :=
  (splitInclNl s).map rustLineMap

/-- Rust `Vec::join("\n")` on a list of lines. -/
def joinLines : List Str → Str
  | [] => []
  | [l] => l
  | l :: ls => l ++ '\n' :: joinLines ls

/-- Rust `str::replace (c, rep)` for a single-character needle. -/
def replaceChar (c : Char) (rep : Str) : Str → Str
  | [] => []
  | x :: xs => if x = c then rep ++ replaceChar c rep xs else x :: replaceChar c rep xs

/-- The generic CONL value tree produced by the parser: `ConlValue` in
`src/generate.rs`.  Tables (`BTreeMap<String, ConlValue>`) are modelled as
association lists kept sorted by `ltL`, mirroring the B-tree's key order. -/
inductive ConlValue where
  | str : Str → ConlValue
  | arr : List Str → ConlValue
  | object : List (Str × ConlValue) → ConlValue
  | objectArray : List (List (Str × ConlValue)) → ConlValue

/-- A CONL table: the model of `BTreeMap<String, ConlValue>`. -/
abbrev ConlTable := List (Str × ConlValue)

/-- `BTreeMap::insert`: insert in key order, overwriting an existing key. -/
def alInsert (k : Str) (v : ConlValue) : ConlTable → ConlTable
  | [] => [(k, v)]
  | (k', v') :: rest =>
    if ltL k k' then (k, v) :: (k', v') :: rest
    else if k = k' then (k, v) :: rest
    else (k', v') :: alInsert k v rest

/-- `BTreeMap::get`. -/
def lookupTable (t : ConlTable) (k : Str) : Option ConlValue :=
  match t with
  | [] => none
  | p :: rest => if p.1 = k then some p.2 else lookupTable rest k

/-- `ConlValue::as_str` from `src/generate.rs`. -/
def ConlValue.as_str : ConlValue → Option Str
  | .str s => some s
  | _ => none

/-- The parse error type: `parse_conl` returns `anyhow::Result`, though no
error path exists in its body. -/
structure ConlError where
  msg : Str

/-! ### The parser loops of `parse_conl` (`src/generate.rs`, lines 319-504)

Each imperative `while` loop over the line index `i` becomes a recursive
function that consumes lines from the front of the list and returns the
unconsumed suffix; `break` returns the current line unconsumed. -/

/-- The nested-array inner loops (lines 418-428 with 6-space indent inside an
object-array element, lines 480-490 with 4-space indent inside a nested
object); the required indent prefix is the parameter `pre`. -/
def nestedArrLoop (pre : Str) : List Str → List Str × List Str
  | [] => ([], [])
  | l :: ls =>
    if ¬ pre.isPrefixOf l then ([], l :: ls)
    else
      match stripPrefixL "= ".data (trimL l) with
      | some v => (v :: (nestedArrLoop pre ls).1, (nestedArrLoop pre ls).2)
      | none => nestedArrLoop pre ls

theorem nestedArrLoop_len (pre : Str) (ls : List Str) :
    (nestedArrLoop pre ls).2.length ≤ ls.length := by
  induction ls with
  | nil => simp [nestedArrLoop]
  | cons l ls ih =>
    simp only [nestedArrLoop]
    split
    · simp
    · split <;> simpa using Nat.le_succ_of_le ih

/-- The simple-array loop (lines 444-455). -/
def arrLoop : List Str → List Str × List Str
  | [] => ([], [])
  | l :: ls =>
    if ¬ "  ".data.isPrefixOf l ∧ ¬ (trimL l).isEmpty then ([], l :: ls)
    else
      match stripPrefixL "= ".data (trimL l) with
      | some v => (v :: (arrLoop ls).1, (arrLoop ls).2)
      | none => arrLoop ls

theorem arrLoop_len (ls : List Str) : (arrLoop ls).2.length ≤ ls.length := by
  induction ls with
  | nil => simp [arrLoop]
  | cons l ls ih =>
    simp only [arrLoop]
    split
    · simp
    · split <;> simpa using Nat.le_succ_of_le ih

/-- The multi-line block loop (lines 343-354). -/
def multilineLoop (acc : Str) : List Str → Str × List Str
  | [] => (acc, [])
  | l :: ls =>
    if ¬ "  ".data.isPrefixOf l ∧ ¬ (trimL l).isEmpty then (acc, l :: ls)
    else
      multilineLoop ((if acc.isEmpty then acc else acc ++ ['\n']) ++ trimL l) ls

theorem multilineLoop_len (acc : Str) (ls : List Str) :
    (multilineLoop acc ls).2.length ≤ ls.length := by
  induction ls generalizing acc with
  | nil => simp [multilineLoop]
  | cons l ls ih =>
    simp only [multilineLoop]
    split
    · simp
    · exact Nat.le_succ_of_le (ih _)

/-- The field loop of one object-array element (lines 394-433). -/
def objFieldsLoop (acc : ConlTable) : List Str → ConlTable × List Str
  | [] => (acc, [])
  | l :: ls =>
    if ¬ "    ".data.isPrefixOf l ∨ (trimL l).isEmpty then
      if trimL l = "=".data then (acc, l :: ls)
      else if ¬ "  ".data.isPrefixOf l ∧ ¬ (trimL l).isEmpty then (acc, l :: ls)
      else objFieldsLoop acc ls
    else
      match splitOnceL " = ".data (trimL l) with
      | some kv => objFieldsLoop (alInsert (trimL kv.1) (.str (trimL kv.2)) acc) ls
      | none =>
        if ¬ containsSub " = ".data (trimL l) ∧ ¬ "=".data.isPrefixOf (trimL l) then
          objFieldsLoop
            (alInsert (trimL l) (.arr (nestedArrLoop "      ".data ls).1) acc)
            (nestedArrLoop "      ".data ls).2
        else objFieldsLoop acc ls
  termination_by ls => ls.length
  decreasing_by
  all_goals simp only [List.length_cons]
  all_goals first
    | omega
    | exact Nat.lt_succ_of_le (nestedArrLoop_len _ _)

theorem objFieldsLoop_len (acc : ConlTable) (ls : List Str) :
    (objFieldsLoop acc ls).2.length ≤ ls.length := by
  induction acc, ls using objFieldsLoop.induct with
  | case1 acc => simp [objFieldsLoop]
  | case2 acc l ls h1 h2 =>
    rw [objFieldsLoop, if_pos h1, if_pos h2]
  | case3 acc l ls h1 h2 h3 =>
    rw [objFieldsLoop, if_pos h1, if_neg h2, if_pos h3]
  | case4 acc l ls h1 h2 h3 ih =>
    rw [objFieldsLoop, if_pos h1, if_neg h2, if_neg h3]
    exact Nat.le_succ_of_le ih
  | case5 acc l ls h1 kv hkv ih =>
    rw [objFieldsLoop, if_neg h1, hkv]
    exact Nat.le_succ_of_le ih
  | case6 acc l ls h1 hkv h2 ih =>
    rw [objFieldsLoop, if_neg h1, hkv]
    simp only [if_pos h2]
    exact Nat.le_succ_of_le (le_trans ih (nestedArrLoop_len _ _))
  | case7 acc l ls h1 hkv h2 ih =>
    rw [objFieldsLoop, if_neg h1, hkv]
    simp only [if_neg h2]
    exact Nat.le_succ_of_le ih

/-- The object-array loop (lines 384-440). -/
def objArrayLoop (objs : List ConlTable) : List Str → List ConlTable × List Str
  | [] => (objs, [])
  | l :: ls =>
    if ¬ "  ".data.isPrefixOf l ∧ ¬ (trimL l).isEmpty then (objs, l :: ls)
    else if trimL l = "=".data then
      objArrayLoop
        (if (objFieldsLoop [] ls).1.isEmpty then objs
         else objs ++ [(objFieldsLoop [] ls).1])
        (objFieldsLoop [] ls).2
    else objArrayLoop objs ls
  termination_by ls => ls.length
  decreasing_by
  all_goals simp only [List.length_cons]
  all_goals first
    | omega
    | exact Nat.lt_succ_of_le (objFieldsLoop_len _ _)

theorem objArrayLoop_len (objs : List ConlTable) (ls : List Str) :
    (objArrayLoop objs ls).2.length ≤ ls.length := by
  induction objs, ls using objArrayLoop.induct with
  | case1 objs => simp [objArrayLoop]
  | case2 objs l ls h1 =>
    rw [objArrayLoop, if_pos h1]
  | case3 objs l ls h1 h2 ih =>
    rw [objArrayLoop, if_neg h1, if_pos h2]
    exact Nat.le_succ_of_le (le_trans ih (objFieldsLoop_len _ _))
  | case4 objs l ls h1 h2 ih =>
    rw [objArrayLoop, if_neg h1, if_neg h2]
    exact Nat.le_succ_of_le ih

/-- The nested-object loop (lines 460-495). -/
def objectLoop (acc : ConlTable) : List Str → ConlTable × List Str
  | [] => (acc, [])
  | l :: ls =>
    if ¬ "  ".data.isPrefixOf l ∧ ¬ (trimL l).isEmpty then (acc, l :: ls)
    else if (trimL l).isEmpty then objectLoop acc ls
    else
      match splitOnceL " = ".data (trimL l) with
      | some kv => objectLoop (alInsert (trimL kv.1) (.str (trimL kv.2)) acc) ls
      | none =>
        if ¬ containsSub " = ".data (trimL l) then
          objectLoop
            (alInsert (trimL l) (.arr (nestedArrLoop "    ".data ls).1) acc)
            (nestedArrLoop "    ".data ls).2
        else objectLoop acc ls
  termination_by ls => ls.length
  decreasing_by
  all_goals simp only [List.length_cons]
  all_goals first
    | omega
    | exact Nat.lt_succ_of_le (nestedArrLoop_len _ _)

theorem objectLoop_len (acc : ConlTable) (ls : List Str) :
    (objectLoop acc ls).2.length ≤ ls.length := by
  induction acc, ls using objectLoop.induct with
  | case1 acc => simp [objectLoop]
  | case2 acc l ls h1 =>
    rw [objectLoop, if_pos h1]
  | case3 acc l ls h1 h2 ih =>
    rw [objectLoop, if_neg h1, if_pos h2]
    exact Nat.le_succ_of_le ih
  | case4 acc l ls h1 h2 kv hkv ih =>
    rw [objectLoop, if_neg h1, if_neg h2, hkv]
    exact Nat.le_succ_of_le ih
  | case5 acc l ls h1 h2 hkv h3 ih =>
    rw [objectLoop, if_neg h1, if_neg h2, hkv]
    simp only [if_pos h3]
    exact Nat.le_succ_of_le (le_trans ih (nestedArrLoop_len _ _))
  | case6 acc l ls h1 h2 hkv h3 ih =>
    rw [objectLoop, if_neg h1, if_neg h2, hkv]
    simp only [if_neg h3]
    exact Nat.le_succ_of_le ih

/-- The `is_array` lookahead flag of the bare-key branch (lines 367-379):
true when the line after the bare key trims to `= value` or to a lone `=`. -/
def is_array_look : List Str → Bool
  | [] => false
  | nl :: _ => "= ".data.isPrefixOf (trimL nl) || trimL nl = "=".data

/-- The `is_object_array` lookahead flag of the bare-key branch (lines
367-379): true when the line after the bare key trims to a lone `=`. -/
def is_object_array_look : List Str → Bool
  | [] => false
  | nl :: _ => trimL nl = "=".data

/-- The bare-key branch of the top-level loop (lines 363-497): one-line
lookahead decides between array, object-array and nested object, then the
corresponding loop consumes the block. -/
def parseBareKey (ls : List Str) : ConlValue × List Str :=
  if is_object_array_look ls then
    (.objectArray (objArrayLoop [] ls).1, (objArrayLoop [] ls).2)
  else if is_array_look ls then
    (.arr (arrLoop ls).1, (arrLoop ls).2)
  else
    (.object (objectLoop [] ls).1, (objectLoop [] ls).2)

theorem parseBareKey_len (ls : List Str) :
    (parseBareKey ls).2.length ≤ ls.length := by
  unfold parseBareKey
  split
  · exact objArrayLoop_len [] ls
  · split
    · exact arrLoop_len ls
    · exact objectLoop_len [] ls

/-- The top-level loop of `parse_conl` (lines 324-501). -/
def parseLoop (acc : ConlTable) : List Str → ConlTable
  | [] => acc
  | l :: ls =>
    if (trimL l).isEmpty then parseLoop acc ls
    else
      match splitOnceL " = ".data (trimL l) with
      | some kv =>
        if "\"\"\"".data.isPrefixOf (trimL kv.2) then
          parseLoop (alInsert (trimL kv.1) (.str (multilineLoop [] ls).1) acc)
            (multilineLoop [] ls).2
        else parseLoop (alInsert (trimL kv.1) (.str (trimL kv.2)) acc) ls
      | none =>
        if ¬ containsSub " = ".data (trimL l) ∧ ¬ "=".data.isPrefixOf (trimL l) then
          parseLoop (alInsert (trimL l) (parseBareKey ls).1 acc) (parseBareKey ls).2
        else parseLoop acc ls
  termination_by ls => ls.length
  decreasing_by
  all_goals simp only [List.length_cons]
  all_goals first
    | omega
    | exact Nat.lt_succ_of_le (multilineLoop_len _ _)
    | exact Nat.lt_succ_of_le (parseBareKey_len _)

/-- `parse_conl` from `src/generate.rs` (lines 319-504): split the document
into lines and run the top-level loop on an initially empty `BTreeMap`; the
function always returns `Ok`. -/
def parse_conl (content : String) : Except ConlError ConlTable :=
  .ok (parseLoop [] (linesL content.data))

/-! ### The serializer of `src/conl_ser.rs` -/

/-- `escape_value` from `src/conl_ser.rs` (lines 14-36): quote and escape a
scalar when it is empty, starts or ends with a space, starts with `"`, or
contains `;`, `=`, a newline or a carriage return; otherwise emit it
unchanged. -/
def escape_value (s : Str) : Str :=
  if s.isEmpty || [' '].isPrefixOf s || [' '].isSuffixOf s || ['"'].isPrefixOf s
      || s.contains ';' || s.contains '=' || s.contains '\n' || s.contains '\r' then
    '"' ::
      replaceChar '\t' "\\t".data
        (replaceChar '\r' "\\r".data
          (replaceChar '\n' "\\n".data
            (replaceChar '"' "\\\"".data
              (replaceChar '\\' "\\\\".data s)))) ++ ['"']
  else s

/-- `format_multiline` from `src/conl_ser.rs` (lines 39-48): the opener
`"""hint` then every source line prefixed by two spaces, each line
newline-terminated (so the result itself ends with a newline). -/
def format_multiline (s : Str) (hint : Option Str) : Str :=
  "\"\"\"".data ++ hint.getD [] ++ ['\n'] ++
    ((linesL s).map (fun line => "  ".data ++ line ++ ['\n'])).flatten

/-- `RateType` from `src/types.rs`. -/
inductive RateType where
  | forever | postcard | international | globalForever | additionalOunce
  | twoOunce | threeOunce | nonmachineable | semipostal | definitive
  | priorityMail | priorityMailExpress | presortedFirstClass
  | presortedStandard | nonprofit | other
  deriving DecidableEq

/-- `RateType::as_str`. -/
def RateType.as_str : RateType → Str
  | .forever => "Forever".data
  | .postcard => "Postcard".data
  | .international => "International".data
  | .globalForever => "Global Forever".data
  | .additionalOunce => "Additional Ounce".data
  | .twoOunce => "Two Ounce".data
  | .threeOunce => "Three Ounce".data
  | .nonmachineable => "Nonmachineable Surcharge".data
  | .semipostal => "Semipostal".data
  | .definitive => "Definitive".data
  | .priorityMail => "Priority Mail".data
  | .priorityMailExpress => "Priority Mail Express".data
  | .presortedFirstClass => "Presorted First-Class".data
  | .presortedStandard => "Presorted Standard".data
  | .nonprofit => "Nonprofit".data
  | .other => "Other".data

/-- `StampType` from `src/types.rs`. -/
inductive StampType where
  | stamp | card | envelope
  deriving DecidableEq

/-- `StampType::as_str`. -/
def StampType.as_str : StampType → Str
  | .stamp => "stamp".data
  | .card => "card".data
  | .envelope => "envelope".data

/-- `Credits` from `src/types.rs`. -/
structure Credits where
  art_director : Option Str
  artist : Option Str
  designer : Option Str
  typographer : Option Str
  photographer : Option Str
  illustrator : Option Str

/-- `Credits::is_empty`. -/
def Credits.is_empty (c : Credits) : Bool :=
  c.art_director.isNone && c.artist.isNone && c.designer.isNone
    && c.typographer.isNone && c.photographer.isNone && c.illustrator.isNone

/-- `Product` from `src/types.rs`.  The `metadata` field
(`Option<serde_json::Value>`) is never read by `to_conl` and is omitted
from the model. -/
structure Product where
  title : Str
  long_title : Option Str
  price : Option Str
  postal_store_url : Option Str
  stamps_forever_url : Option Str
  images : List Str

/-- `StampMetadata` from `src/types.rs`.  The two `f64` fields are modelled
by the text that Rust's formatter renders for them (`{:.2}` for `rate`),
since floating-point formatting is outside the shallow embedding;
`extra_cost` is never read by `to_conl`.  `year` is a `u32`. -/
structure StampMetadata where
  name : Str
  slug : Str
  api_slug : Str
  url : Str
  year : Nat
  issue_date : Option Str
  issue_location : Option Str
  rate : Option Str
  rate_type : Option RateType
  extra_cost : Option Str
  forever : Bool
  stamp_type : StampType
  series : Option Str
  stamp_images : List Str
  sheet_image : Option Str
  background_color : Option Str
  credits : Credits
  about : Option Str
  products : List Product

/-- One optional line: `if let Some(x) = field { lines.push(render(x)) }`. -/
def optLine {α : Type} (o : Option α) (f : α → Str) : List Str :=
  match o with
  | some x => [f x]
  | none => []

/-- The per-product lines of `to_conl` (lines 131-152): `  =`, the escaped
title, the optional escaped long title and price, the raw URLs, and the
image list. -/
def productLines (p : Product) : List Str :=
  ["  =".data, "    title = ".data ++ escape_value p.title]
  ++ optLine p.long_title (fun lt => "    long_title = ".data ++ escape_value lt)
  ++ optLine p.price (fun pr => "    price = ".data ++ escape_value pr)
  ++ optLine p.postal_store_url (fun u => "    postal_store_url = ".data ++ u)
  ++ optLine p.stamps_forever_url (fun u => "    stamps_forever_url = ".data ++ u)
  ++ (if p.images.isEmpty then []
      else "    images".data :: p.images.map (fun img => "      = ".data ++ img))

/-- The credit lines of `to_conl` (lines 103-120). -/
def creditsLines (c : Credits) : List Str :=
  optLine c.art_director (fun x => "  art_director = ".data ++ escape_value x)
  ++ optLine c.artist (fun x => "  artist = ".data ++ escape_value x)
  ++ optLine c.designer (fun x => "  designer = ".data ++ escape_value x)
  ++ optLine c.typographer (fun x => "  typographer = ".data ++ escape_value x)
  ++ optLine c.photographer (fun x => "  photographer = ".data ++ escape_value x)
  ++ optLine c.illustrator (fun x => "  illustrator = ".data ++ escape_value x)

/-- The `lines` vector built by `ToConl::to_conl` for `StampMetadata`
(`src/conl_ser.rs`, lines 52-153), in source push order. -/
def stampLines (m : StampMetadata) : List Str :=
  [ "name = ".data ++ escape_value m.name,
    "slug = ".data ++ escape_value m.slug,
    "api_slug = ".data ++ escape_value m.api_slug,
    "url = ".data ++ escape_value m.url ]
  ++ optLine m.issue_date (fun d => "issue_date = ".data ++ d)
  ++ optLine m.issue_location (fun loc => "issue_location = ".data ++ escape_value loc)
  ++ optLine m.rate (fun r => "rate = ".data ++ r)
  ++ optLine m.rate_type (fun rt => "rate_type = ".data ++ rt.as_str)
  ++ [ "forever = ".data ++ (if m.forever then "true".data else "false".data),
       "year = ".data ++ (Nat.repr m.year).data ]
  ++ (if m.stamp_type ≠ StampType.stamp then ["type = ".data ++ m.stamp_type.as_str]
      else [])
  ++ optLine m.series (fun s => "series = ".data ++ escape_value s)
  ++ optLine m.background_color (fun bg => "background_color = ".data ++ bg)
  ++ (if m.stamp_images.isEmpty then []
      else "stamp_images".data :: m.stamp_images.map (fun img => "  = ".data ++ img))
  ++ optLine m.sheet_image (fun sh => "sheet_image = ".data ++ sh)
  ++ (if m.credits.is_empty then [] else "credits".data :: creditsLines m.credits)
  ++ optLine m.about (fun a => "about = ".data ++ format_multiline a (some "md".data))
  ++ (if m.products.isEmpty then []
      else "products".data :: (m.products.map productLines).flatten)

/-- `ToConl::to_conl` for `StampMetadata` (line 155): `lines.join("\n") + "\n"`. -/
def StampMetadata.to_conl (m : StampMetadata) : Str :=
  joinLines (stampLines m) ++ ['\n']

/-! ### The generator-side CONL helpers of `src/main.rs` -/

/-- `escape_conl_value` from `src/main.rs` (lines 521-524): only doubles
backslashes. -/
def escape_conl_value (s : Str) : Str :=
  replaceChar '\\' "\\\\".data s

/-- `format_multiline_text` from `src/main.rs` (lines 526-542): the opener
`"""md`, then each line of the trailing-trimmed text either as a bare
newline (when the line trims to nothing) or as the indent string followed by
the trimmed line and a newline. -/
def format_multiline_text (text : Str) (indent : Nat) : Str :=
  "\"\"\"md\n".data ++
    ((linesL (trimEndL text)).map (fun line =>
      if (trimL line).isEmpty then ['\n']
      else (List.replicate indent "  ".data).flatten ++ trimL line ++ ['\n'])).flatten

/-! ### Schema mapping: the `forever` field of `load_stamp`
(`src/generate.rs`, lines 595-599) -/

/-- The `forever` computation of `load_stamp`: look the key up in the parsed
table, read it as a scalar, compare with `"true"`, and default to `true`
when absent (the documented backward-compatibility default). -/
def loadStampForever (data : ConlTable) : Bool :=
  (((lookupTable data "forever".data).bind ConlValue.as_str).map
    (fun s => s = "true".data : Str → Bool)).getD true

/-! ### The lexicographic order: basic facts -/

theorem ltL_irrefl (a : Str) : ltL a a = false := by
  induction a with
  | nil => rfl
  | cons c cs ih => simp [ltL, lt_irrefl, ih]

theorem ltL_asymm : ∀ {a b : Str}, ltL a b = true → ltL b a = false
  | [], [], h => by simp [ltL] at h
  | [], _ :: _, _ => rfl
  | _ :: _, [], h => by simp [ltL] at h
  | a :: as, b :: bs, h => by
    by_cases h1 : a < b
    · have h2 : ¬ b < a := fun hc => absurd (lt_trans h1 hc) (lt_irrefl a)
      simp [ltL, h1, h2]
    · by_cases h2 : b < a
      · simp [ltL, h1, h2] at h
      · simp only [ltL, if_neg h1, if_neg h2] at h
        simp only [ltL, if_neg h1, if_neg h2]
        exact ltL_asymm h

theorem ltL_trans : ∀ {a b c : Str}, ltL a b = true → ltL b c = true → ltL a c = true
  | [], b, [], _, h2 => by cases b <;> simp [ltL] at h2
  | [], _, _ :: _, _, _ => rfl
  | _ :: _, [], _, h1, _ => by simp [ltL] at h1
  | _ :: _, _ :: _, [], _, h2 => by simp [ltL] at h2
  | a :: as, b :: bs, c :: cs, h1, h2 => by
    by_cases hab : a < b
    · by_cases hbc : b < c
      · simp [ltL, lt_trans hab hbc]
      · by_cases hcb : c < b
        · simp [ltL, hbc, hcb] at h2
        · have : b = c := le_antisymm (not_lt.mp hcb) (not_lt.mp hbc)
          subst this
          simp [ltL, hab]
    · by_cases hba : b < a
      · simp [ltL, hab, hba] at h1
      · have : a = b := le_antisymm (not_lt.mp hba) (not_lt.mp hab)
        subst this
        by_cases hbc : a < c
        · simp [ltL, hbc]
        · by_cases hcb : c < a
          · simp [ltL, hbc, hcb] at h2
          · simp only [ltL, if_neg hbc, if_neg hcb] at h2 ⊢
            simp only [ltL, if_neg hab, if_neg hba] at h1
            exact ltL_trans h1 h2

theorem ltL_connex : ∀ {a b : Str}, a ≠ b → ltL a b = true ∨ ltL b a = true
  | [], [], h => absurd rfl h
  | [], _ :: _, _ => Or.inl rfl
  | _ :: _, [], _ => Or.inr rfl
  | a :: as, b :: bs, h => by
    by_cases hab : a < b
    · exact Or.inl (by simp [ltL, hab])
    · by_cases hba : b < a
      · exact Or.inr (by simp [ltL, hba])
      · have heq : a = b := le_antisymm (not_lt.mp hba) (not_lt.mp hab)
        subst heq
        have : as ≠ bs := fun hc => h (by rw [hc])
        rcases ltL_connex this with h' | h'
        · exact Or.inl (by simp [ltL, lt_irrefl, h'])
        · exact Or.inr (by simp [ltL, lt_irrefl, h'])

/-! ### Sortedness of the parser's tables -/

/-- The keys of a table are strictly ascending in the lexicographic order:
this is the iteration-order invariant of `BTreeMap`. -/
abbrev SortedKeys (t : ConlTable) : Prop :=
  List.Chain' (fun p q => ltL p.1 q.1 = true) t

instance : IsTrans (Str × ConlValue) (fun p q => ltL p.1 q.1 = true) :=
  ⟨fun _ _ _ h1 h2 => ltL_trans h1 h2⟩

/-- Every table anywhere inside a value has sorted keys. -/
inductive AllSorted : ConlValue → Prop where
  | str : ∀ s, AllSorted (.str s)
  | arr : ∀ a, AllSorted (.arr a)
  | object : ∀ o, SortedKeys o → (∀ p ∈ o, AllSorted p.2) → AllSorted (.object o)
  | objectArray : ∀ os, (∀ o ∈ os, SortedKeys o) →
      (∀ o ∈ os, ∀ p ∈ o, AllSorted p.2) → AllSorted (.objectArray os)

theorem alInsert_head_key (k : Str) (v : ConlValue) :
    ∀ t : ConlTable, (alInsert k v t).head?.map Prod.fst = some k ∨
      (alInsert k v t).head?.map Prod.fst = t.head?.map Prod.fst := by
  intro t
  cases t with
  | nil => exact Or.inl rfl
  | cons p rest =>
    obtain ⟨k', v'⟩ := p
    by_cases h1 : ltL k k' = true
    · exact Or.inl (by simp only [alInsert, if_pos h1, List.head?_cons, Option.map_some'])
    · by_cases h2 : k = k'
      · exact Or.inl (by simp only [alInsert, if_neg h1, if_pos h2, List.head?_cons,
          Option.map_some'])
      · exact Or.inr (by simp only [alInsert, if_neg h1, if_neg h2, List.head?_cons,
          Option.map_some'])

theorem alInsert_sorted (k : Str) (v : ConlValue) :
    ∀ t : ConlTable, SortedKeys t → SortedKeys (alInsert k v t) := by
  intro t
  induction t with
  | nil => intro _; simp [alInsert, SortedKeys]
  | cons p rest ih =>
    intro hs
    obtain ⟨k', v'⟩ := p
    rw [SortedKeys, List.chain'_cons'] at hs
    by_cases h1 : ltL k k' = true
    · simp only [alInsert, if_pos h1]
      rw [SortedKeys, List.chain'_cons']
      refine ⟨fun b hb => ?_, List.chain'_cons'.mpr hs⟩
      simp only [List.head?_cons, Option.mem_def, Option.some.injEq] at hb
      cases hb
      exact h1
    · by_cases h2 : k = k'
      · simp only [alInsert, if_neg h1, if_pos h2]
        rw [SortedKeys, List.chain'_cons']
        subst h2
        exact hs
      · simp only [alInsert, if_neg h1, if_neg h2]
        rw [SortedKeys, List.chain'_cons']
        constructor
        · intro b hb
          have hk'k : ltL k' k = true := by
            rcases ltL_connex h2 with h | h
            · exact absurd h h1
            · exact h
          rcases alInsert_head_key k v rest with hh | hh
          · have hb1 : b.1 = k := by
              rw [Option.mem_def] at hb
              rw [hb] at hh
              simpa using hh
            rw [hb1]
            exact hk'k
          · rw [Option.mem_def] at hb
            rw [hb] at hh
            cases hr : rest.head? with
            | none => rw [hr] at hh; simp at hh
            | some q =>
              rw [hr] at hh
              simp only [Option.map_some', Option.some.injEq] at hh
              have hq := hs.1 q (by rw [hr]; rfl)
              rw [hh]
              exact hq
        · exact ih hs.2

theorem alInsert_mem {q : Str × ConlValue} (k : Str) (v : ConlValue) :
    ∀ {t : ConlTable}, q ∈ alInsert k v t → q = (k, v) ∨ q ∈ t := by
  intro t
  induction t with
  | nil => intro h; simp [alInsert] at h; exact Or.inl h
  | cons p rest ih =>
    obtain ⟨k', v'⟩ := p
    intro h
    by_cases h1 : ltL k k'
    · simp only [alInsert, if_pos h1] at h
      rcases List.mem_cons.mp h with h | h
      · exact Or.inl h
      · exact Or.inr h
    · by_cases h2 : k = k'
      · simp only [alInsert, if_neg h1, if_pos h2] at h
        rcases List.mem_cons.mp h with h | h
        · exact Or.inl h
        · exact Or.inr (List.mem_cons_of_mem _ h)
      · simp only [alInsert, if_neg h1, if_neg h2] at h
        rcases List.mem_cons.mp h with h | h
        · exact Or.inr (by simp [h])
        · rcases ih h with h | h
          · exact Or.inl h
          · exact Or.inr (List.mem_cons_of_mem _ h)

theorem alInsert_append (k : Str) (v : ConlValue) :
    ∀ acc : ConlTable, (∀ q ∈ acc, ltL q.1 k = true) →
      alInsert k v acc = acc ++ [(k, v)] := by
  intro acc
  induction acc with
  | nil => intro _; rfl
  | cons p rest ih =>
    intro h
    obtain ⟨k', v'⟩ := p
    have hk' : ltL k' k = true := h (k', v') (by simp)
    have h1 : ¬ ltL k k' = true := by simp [ltL_asymm hk']
    have h2 : k ≠ k' := by
      intro hc; subst hc; simp [ltL_irrefl] at hk'
    simp only [alInsert, if_neg h1, if_neg h2, List.cons_append, List.cons.injEq, true_and]
    exact ih (fun q hq => h q (List.mem_cons_of_mem _ hq))

/-- The table invariant that the parser maintains: sorted keys, and every
stored value has sorted tables inside. -/
def TableInv (t : ConlTable) : Prop :=
  SortedKeys t ∧ ∀ p ∈ t, AllSorted p.2

theorem alInsert_inv {t : ConlTable} {k : Str} {v : ConlValue}
    (ht : TableInv t) (hv : AllSorted v) : TableInv (alInsert k v t) := by
  refine ⟨alInsert_sorted k v t ht.1, fun p hp => ?_⟩
  rcases alInsert_mem k v hp with h | h
  · rw [h]; exact hv
  · exact ht.2 p h

theorem objFieldsLoop_inv (acc : ConlTable) (ls : List Str) :
    TableInv acc → TableInv (objFieldsLoop acc ls).1 := by
  induction acc, ls using objFieldsLoop.induct with
  | case1 acc => intro h; simpa [objFieldsLoop] using h
  | case2 acc l ls h1 h2 =>
    intro h; rw [objFieldsLoop, if_pos h1, if_pos h2]; exact h
  | case3 acc l ls h1 h2 h3 =>
    intro h; rw [objFieldsLoop, if_pos h1, if_neg h2, if_pos h3]; exact h
  | case4 acc l ls h1 h2 h3 ih =>
    intro h; rw [objFieldsLoop, if_pos h1, if_neg h2, if_neg h3]; exact ih h
  | case5 acc l ls h1 kv hkv ih =>
    intro h; rw [objFieldsLoop, if_neg h1, hkv]
    exact ih (alInsert_inv h (AllSorted.str _))
  | case6 acc l ls h1 hkv h2 ih =>
    intro h; rw [objFieldsLoop, if_neg h1, hkv]
    simp only [if_pos h2]
    exact ih (alInsert_inv h (AllSorted.arr _))
  | case7 acc l ls h1 hkv h2 ih =>
    intro h; rw [objFieldsLoop, if_neg h1, hkv]
    simp only [if_neg h2]
    exact ih h

theorem objectLoop_inv (acc : ConlTable) (ls : List Str) :
    TableInv acc → TableInv (objectLoop acc ls).1 := by
  induction acc, ls using objectLoop.induct with
  | case1 acc => intro h; simpa [objectLoop] using h
  | case2 acc l ls h1 =>
    intro h; rw [objectLoop, if_pos h1]; exact h
  | case3 acc l ls h1 h2 ih =>
    intro h; rw [objectLoop, if_neg h1, if_pos h2]; exact ih h
  | case4 acc l ls h1 h2 kv hkv ih =>
    intro h; rw [objectLoop, if_neg h1, if_neg h2, hkv]
    exact ih (alInsert_inv h (AllSorted.str _))
  | case5 acc l ls h1 h2 hkv h3 ih =>
    intro h; rw [objectLoop, if_neg h1, if_neg h2, hkv]
    simp only [if_pos h3]
    exact ih (alInsert_inv h (AllSorted.arr _))
  | case6 acc l ls h1 h2 hkv h3 ih =>
    intro h; rw [objectLoop, if_neg h1, if_neg h2, hkv]
    simp only [if_neg h3]
    exact ih h

theorem objArrayLoop_inv (objs : List ConlTable) (ls : List Str) :
    (∀ o ∈ objs, TableInv o) → ∀ o ∈ (objArrayLoop objs ls).1, TableInv o := by
  induction objs, ls using objArrayLoop.induct with
  | case1 objs => intro h; rw [objArrayLoop]; exact h
  | case2 objs l ls h1 =>
    intro h; rw [objArrayLoop, if_pos h1]; exact h
  | case3 objs l ls h1 h2 ih =>
    intro h; rw [objArrayLoop, if_neg h1, if_pos h2]
    apply ih
    intro o ho
    split at ho
    · exact h o ho
    · rcases List.mem_append.mp ho with h' | h'
      · exact h o h'
      · have : o = (objFieldsLoop [] ls).1 := by simpa using h'
        rw [this]
        exact objFieldsLoop_inv [] ls ⟨List.chain'_nil, by simp⟩
  | case4 objs l ls h1 h2 ih =>
    intro h; rw [objArrayLoop, if_neg h1, if_neg h2]
    exact ih h

theorem parseBareKey_allSorted (ls : List Str) : AllSorted (parseBareKey ls).1 := by
  unfold parseBareKey
  split
  · refine AllSorted.objectArray _ (fun o ho => ?_) (fun o ho p hp => ?_)
    · exact (objArrayLoop_inv [] ls (by simp) o ho).1
    · exact (objArrayLoop_inv [] ls (by simp) o ho).2 p hp
  · split
    · exact AllSorted.arr _
    · have := objectLoop_inv [] ls ⟨List.chain'_nil, by simp⟩
      exact AllSorted.object _ this.1 this.2

theorem parseLoop_inv (acc : ConlTable) (ls : List Str) :
    TableInv acc → TableInv (parseLoop acc ls) := by
  induction acc, ls using parseLoop.induct with
  | case1 acc => intro h; simpa [parseLoop] using h
  | case2 acc l ls h1 ih =>
    intro h; rw [parseLoop, if_pos h1]; exact ih h
  | case3 acc l ls h1 kv hkv h2 ih =>
    intro h; rw [parseLoop, if_neg h1, hkv]
    simp only [if_pos h2]
    exact ih (alInsert_inv h (AllSorted.str _))
  | case4 acc l ls h1 kv hkv h2 ih =>
    intro h; rw [parseLoop, if_neg h1, hkv]
    simp only [if_neg h2]
    exact ih (alInsert_inv h (AllSorted.str _))
  | case5 acc l ls h1 hkv h2 ih =>
    intro h; rw [parseLoop, if_neg h1, hkv]
    simp only [if_pos h2]
    exact ih (alInsert_inv h (parseBareKey_allSorted ls))
  | case6 acc l ls h1 hkv h2 ih =>
    intro h; rw [parseLoop, if_neg h1, hkv]
    simp only [if_neg h2]
    exact ih h

/-! ### The generic serializer

Modelled from the spec: the repository has no serializer over the generic
`ConlValue` tree (its serializers are struct-directed, e.g. `to_conl`), but
the specification describes `serialize(value: &Value) -> String` with scalar
escaping, arrays as a bare key plus `  = value` lines one level deeper,
tables as a bare key plus child lines one level deeper, and table-arrays as
a bare key plus per-element `=` lines with fields two levels deeper, joined
with LF and ending in a single newline.  Scalar escaping is the `escape_value`
of `src/conl_ser.rs`. -/

/-- Two spaces per indentation level. -/
def indentOf (ind : Nat) : Str := (List.replicate ind "  ".data).flatten

/-- Modelled from the spec: emit the lines of one `key`/value binding at
indentation level `ind` (spec section 4.4). -/
def serialize_value (ind : Nat) (key : Str) : ConlValue → List Str
  | .str s => [indentOf ind ++ key ++ " = ".data ++ escape_value s]
  | .arr items =>
    (indentOf ind ++ key) ::
      items.map (fun it => indentOf (ind + 1) ++ "= ".data ++ escape_value it)
  | .object o =>
    (indentOf ind ++ key) ::
      (o.attach.map (fun q => serialize_value (ind + 1) q.1.1 q.1.2)).flatten
  | .objectArray os =>
    (indentOf ind ++ key) ::
      (os.attach.map (fun ot =>
        (indentOf (ind + 1) ++ "=".data) ::
          (ot.1.attach.map (fun q => serialize_value (ind + 2) q.1.1 q.1.2)).flatten)).flatten
  termination_by v => sizeOf v
  decreasing_by
  · obtain ⟨⟨q1, q2⟩, hq⟩ := q
    have h1 := List.sizeOf_lt_of_mem hq
    simp at h1 ⊢
    omega
  · obtain ⟨ot1, hot⟩ := ot
    obtain ⟨⟨q1, q2⟩, hq⟩ := q
    have h1 := List.sizeOf_lt_of_mem hot
    have h2 := List.sizeOf_lt_of_mem hq
    simp at h1 h2 ⊢
    omega

/-- Modelled from the spec: serialize a whole document (a top-level table)
as the lines of its bindings at indentation 0, joined with LF, with a final
trailing newline. -/
def serialize_conl (t : ConlTable) : Str :=
  joinLines ((t.map (fun p => serialize_value 0 p.1 p.2)).flatten) ++ ['\n']

/-! ### Plain tokens: strings the serializer emits verbatim -/

/-- A character that triggers neither quoting nor trimming nor splitting:
not Unicode whitespace and none of `;`, `=`, `"`. -/
def plainChar (c : Char) : Bool :=
  ¬ isRustWhitespace c && c ≠ ';' && c ≠ '=' && c ≠ '"'

/-- A nonempty string of plain characters. -/
def plainTokB (s : Str) : Bool :=
  ¬ s.isEmpty && s.all plainChar

/-- A table entry that binds a plain key to a plain scalar. -/
def plainEntryB (p : Str × ConlValue) : Bool :=
  plainTokB p.1 &&
    (match p.2 with
     | .str s => plainTokB s
     | _ => false)

/-! ### Plain-token lemmas -/

theorem plainChar_not_ws {c : Char} (h : plainChar c = true) :
    isRustWhitespace c = false := by
  simp [plainChar] at h
  simp [h.1]

theorem plainChar_ne_space {c : Char} (h : plainChar c = true) : c ≠ ' ' := by
  intro hc
  subst hc
  exact absurd h (by decide)

theorem plainChar_ne_quote {c : Char} (h : plainChar c = true) : c ≠ '"' := by
  intro hc
  subst hc
  simp [plainChar] at h

theorem plainTok_ne_nil {s : Str} (h : plainTokB s = true) : s ≠ [] := by
  simp [plainTokB] at h
  simpa using h.1

theorem plainTok_chars {s : Str} (h : plainTokB s = true) :
    ∀ c ∈ s, plainChar c = true := by
  simp [plainTokB, List.all_eq_true] at h
  exact h.2

theorem dropWhile_eq_self_of_head {p : Char → Bool} {s : Str}
    (h : ∀ c, s.head? = some c → p c = false) : s.dropWhile p = s := by
  cases s with
  | nil => rfl
  | cons c cs =>
    rw [List.dropWhile_cons, if_neg]
    simp [h c rfl]

theorem trimL_eq_self {s : Str}
    (h1 : ∀ c, s.head? = some c → isRustWhitespace c = false)
    (h2 : ∀ c, s.getLast? = some c → isRustWhitespace c = false) : trimL s = s := by
  unfold trimL
  rw [dropWhile_eq_self_of_head h1]
  rw [dropWhile_eq_self_of_head (by simpa [List.head?_reverse] using h2)]
  exact List.reverse_reverse s

theorem trimL_plain {s : Str} (h : plainTokB s = true) : trimL s = s := by
  refine trimL_eq_self (fun c hc => ?_) (fun c hc => ?_)
  · refine plainChar_not_ws (plainTok_chars h c ?_)
    cases s with
    | nil => simp at hc
    | cons a as => simp at hc; simp [hc]
  · exact plainChar_not_ws (plainTok_chars h c (List.mem_of_mem_getLast? hc))

theorem splitOnceL_cons_eq (sep : Str) (c : Char) (cs : Str) :
    splitOnceL sep (c :: cs) =
      if sep.isPrefixOf (c :: cs) = true then some ([], (c :: cs).drop sep.length)
      else (splitOnceL sep cs).map (fun p => (c :: p.1, p.2)) := rfl

theorem splitOnceL_at_sep {v : Str} :
    ∀ {k : Str}, (∀ c ∈ k, c ≠ ' ') →
      splitOnceL " = ".data (k ++ " = ".data ++ v) = some (k, v)
  | [], _ => by
    show splitOnceL " = ".data (' ' :: '=' :: ' ' :: v) = some ([], v)
    rw [splitOnceL_cons_eq, if_pos]
    · rfl
    · show (" = ".data.isPrefixOf (" = ".data ++ v)) = true
      exact List.isPrefixOf_iff_prefix.mpr (List.prefix_append _ _)
  | c :: k', h => by
    have hc : c ≠ ' ' := h c (by simp)
    have hpre : " = ".data.isPrefixOf (c :: (k' ++ " = ".data ++ v)) = false := by
      simp only [List.isPrefixOf, Bool.and_eq_false_iff]
      left
      simp
      exact fun hc2 => (hc hc2.symm).elim
    show splitOnceL " = ".data (c :: (k' ++ " = ".data ++ v)) = some (c :: k', v)
    rw [splitOnceL_cons_eq, if_neg (by rw [hpre]; simp)]
    rw [splitOnceL_at_sep (fun d hd => h d (by simp [hd]))]
    rfl

theorem triple_quote_not_prefix {v : Str} (h : ∀ c ∈ v, c ≠ '"') :
    "\"\"\"".data.isPrefixOf v = false := by
  cases v with
  | nil => rfl
  | cons c cs =>
    have hne : ('"' == c) = false := by
      simp
      exact fun hc => (h c (by simp) hc.symm).elim
    simp [List.isPrefixOf, hne]

/-- The single line that the generic serializer emits for a plain scalar
binding, with no escaping applied. -/
def plainScalarLine (p : Str × ConlValue) : Str :=
  p.1 ++ " = ".data ++
    (match p.2 with
     | .str s => s
     | _ => [])

theorem escape_value_plain {s : Str} (h : plainTokB s = true) : escape_value s = s := by
  have hchars := plainTok_chars h
  have hnil := plainTok_ne_nil h
  unfold escape_value
  rw [if_neg]
  intro hcond
  simp only [Bool.or_eq_true] at hcond
  rcases hcond with (((((((h' | h') | h') | h') | h') | h') | h') | h')
  · exact hnil (by simpa using h')
  · cases s with
    | nil => exact hnil rfl
    | cons c cs =>
      simp [List.isPrefixOf] at h'
      exact plainChar_ne_space (hchars c (by simp)) h'.symm
  · rw [List.isSuffixOf] at h'
    cases hr : s.reverse with
    | nil => simp [hr] at h'
    | cons c cs =>
      rw [hr] at h'
      simp [List.isPrefixOf] at h'
      have hc : c ∈ s := by
        have : c ∈ s.reverse := by rw [hr]; simp
        simpa using this
      exact plainChar_ne_space (hchars c hc) h'.symm
  · cases s with
    | nil => exact hnil rfl
    | cons c cs =>
      simp [List.isPrefixOf] at h'
      exact plainChar_ne_quote (hchars c (by simp)) h'.symm
  · have := hchars ';' (List.mem_of_elem_eq_true h')
    simp [plainChar] at this
  · have := hchars '=' (List.mem_of_elem_eq_true h')
    simp [plainChar] at this
  · have := hchars '\n' (List.mem_of_elem_eq_true h')
    exact absurd this (by decide)
  · have := hchars '\r' (List.mem_of_elem_eq_true h')
    exact absurd this (by decide)

/-! ### Lines of a serialized document -/

theorem splitInclNl_append {l : Str} (s : Str) (h : '\n' ∉ l) :
    splitInclNl (l ++ '\n' :: s) = (l ++ ['\n']) :: splitInclNl s := by
  induction l with
  | nil => simp [splitInclNl]
  | cons c cs ih =>
    have hc : c ≠ '\n' := fun hc => h (hc ▸ List.mem_cons_self c cs)
    have hcs : '\n' ∉ cs := fun hx => h (List.mem_cons_of_mem c hx)
    simp [splitInclNl, hc, ih hcs]

theorem splitInclNl_joined : ∀ {ls : List Str}, ls ≠ [] → (∀ l ∈ ls, '\n' ∉ l) →
    splitInclNl (joinLines ls ++ ['\n']) = ls.map (fun l => l ++ ['\n'])
  | [], h, _ => absurd rfl h
  | [l], _, h2 => by
    have : joinLines [l] ++ ['\n'] = l ++ '\n' :: [] := rfl
    rw [this, splitInclNl_append [] (h2 l (by simp))]
    rfl
  | l :: l2 :: rest, _, h2 => by
    have hstep : joinLines (l :: l2 :: rest) ++ ['\n']
        = l ++ '\n' :: (joinLines (l2 :: rest) ++ ['\n']) := by
      simp [joinLines]
    rw [hstep, splitInclNl_append _ (h2 l (by simp))]
    rw [splitInclNl_joined (by simp) (fun x hx => h2 x (List.mem_cons_of_mem l hx))]
    rfl

theorem rustLineMap_concat {l : Str} (h : l.getLast? ≠ some '\r') :
    rustLineMap (l ++ ['\n']) = l := by
  rw [rustLineMap, if_pos (by rw [List.getLast?_concat]),
    List.dropLast_concat, if_neg h]

theorem linesL_join {ls : List Str} (hne : ls ≠ [])
    (h : ∀ l ∈ ls, '\n' ∉ l ∧ l.getLast? ≠ some '\r') :
    linesL (joinLines ls ++ ['\n']) = ls := by
  unfold linesL
  rw [splitInclNl_joined hne (fun l hl => (h l hl).1), List.map_map]
  have hmap : ∀ l ∈ ls, (rustLineMap ∘ fun l => l ++ ['\n']) l = l := by
    intro l hl
    exact rustLineMap_concat (h l hl).2
  rw [List.map_congr_left hmap]
  exact List.map_id ls

/-! ### Parsing one plain key-value line -/

theorem plain_line_no_nl {k s : Str} (hk : plainTokB k = true)
    (hs : plainTokB s = true) :
    '\n' ∉ (k ++ " = ".data ++ s) ∧ '\r' ∉ (k ++ " = ".data ++ s) := by
  constructor <;>
  · intro hmem
    simp only [List.mem_append] at hmem
    rcases hmem with (hmem | hmem) | hmem
    · have := plainChar_not_ws (plainTok_chars hk _ hmem)
      exact absurd this (by decide)
    · simp at hmem
    · have := plainChar_not_ws (plainTok_chars hs _ hmem)
      exact absurd this (by decide)

theorem trimL_plain_line {k s : Str} (hk : plainTokB k = true)
    (hs : plainTokB s = true) :
    trimL (k ++ " = ".data ++ s) = k ++ " = ".data ++ s := by
  apply trimL_eq_self
  · intro c hc
    cases k with
    | nil => exact absurd rfl (plainTok_ne_nil hk)
    | cons a as =>
      have hha : ((a :: as : Str) ++ " = ".data ++ s).head? = some a := rfl
      rw [hha] at hc
      injection hc with hac
      subst hac
      exact plainChar_not_ws (plainTok_chars hk a (by simp))
  · intro c hc
    have hlast : ((k ++ " = ".data) ++ s).getLast? = s.getLast? := by
      rw [List.getLast?_append]
      cases hsl : s.getLast? with
      | none =>
        exact absurd (List.getLast?_eq_none_iff.mp hsl) (plainTok_ne_nil hs)
      | some d => rfl
    rw [hlast] at hc
    exact plainChar_not_ws (plainTok_chars hs c (List.mem_of_mem_getLast? hc))

theorem parseLoop_plain_kv (acc : ConlTable) {k s : Str} (rest : List Str)
    (hk : plainTokB k = true) (hs : plainTokB s = true) :
    parseLoop acc ((k ++ " = ".data ++ s) :: rest)
      = parseLoop (alInsert k (.str s) acc) rest := by
  have htr := trimL_plain_line hk hs
  have hempty : (k ++ " = ".data ++ s).isEmpty = false := by
    cases k with
    | nil => exact absurd rfl (plainTok_ne_nil hk)
    | cons a as => rfl
  have hsp : splitOnceL " = ".data (k ++ " = ".data ++ s) = some (k, s) :=
    splitOnceL_at_sep (fun c hc => plainChar_ne_space (plainTok_chars hk c hc))
  have hq : "\"\"\"".data.isPrefixOf s = false :=
    triple_quote_not_prefix (fun c hc => plainChar_ne_quote (plainTok_chars hs c hc))
  rw [parseLoop, htr]
  simp only [hempty, Bool.false_eq_true, if_false, hsp, trimL_plain hk, trimL_plain hs,
    hq, ite_false]

/-! ### Round trip for flat tables of plain scalars -/

theorem parseLoop_scalar_table : ∀ (t : ConlTable) (acc : ConlTable),
    (∀ p ∈ t, plainEntryB p = true) →
    parseLoop acc (t.map plainScalarLine)
      = t.foldl (fun a p => alInsert p.1 p.2 a) acc := by
  intro t
  induction t with
  | nil => intro acc _; rw [List.map_nil, parseLoop, List.foldl_nil]
  | cons p rest ih =>
    intro acc hp
    obtain ⟨k, v⟩ := p
    have hpe := hp (k, v) (by simp)
    cases v with
    | str s =>
      have hk : plainTokB k = true := by
        simp [plainEntryB] at hpe
        exact hpe.1
      have hs : plainTokB s = true := by
        simp [plainEntryB] at hpe
        exact hpe.2
      have hline : plainScalarLine (k, .str s) = k ++ " = ".data ++ s := rfl
      rw [List.map_cons, hline, parseLoop_plain_kv acc (rest.map plainScalarLine) hk hs,
        ih _ (fun q hq => hp q (List.mem_cons_of_mem _ hq)), List.foldl_cons]
    | arr a => simp [plainEntryB] at hpe
    | object o => simp [plainEntryB] at hpe
    | objectArray os => simp [plainEntryB] at hpe

theorem foldl_alInsert_eq_append : ∀ (t acc : ConlTable),
    List.Pairwise (fun p q => ltL p.1 q.1 = true) (acc ++ t) →
    t.foldl (fun a p => alInsert p.1 p.2 a) acc = acc ++ t := by
  intro t
  induction t with
  | nil => intro acc _; simp
  | cons p rest ih =>
    intro acc hp
    have hcross : ∀ q ∈ acc, ltL q.1 p.1 = true := by
      have := (List.pairwise_append.mp hp).2.2
      intro q hq
      exact this q hq p (by simp)
    rw [List.foldl_cons]
    have hstep : alInsert p.1 p.2 acc = acc ++ [p] := by
      rw [alInsert_append p.1 p.2 acc hcross]
    rw [hstep]
    have hre : acc ++ p :: rest = (acc ++ [p]) ++ rest := by simp
    rw [hre] at hp ⊢
    exact ih (acc ++ [p]) hp

theorem serialize_conl_scalar_table (t : ConlTable)
    (h : ∀ p ∈ t, plainEntryB p = true) :
    serialize_conl t = joinLines (t.map plainScalarLine) ++ ['\n'] := by
  unfold serialize_conl
  congr 2
  induction t with
  | nil => rfl
  | cons p rest ih =>
    obtain ⟨k, v⟩ := p
    have hpe := h (k, v) (by simp)
    cases v with
    | str s =>
      have hs : plainTokB s = true := by
        simp [plainEntryB] at hpe
        exact hpe.2
      have h1 : serialize_value 0 k (.str s) = [k ++ " = ".data ++ s] := by
        rw [serialize_value, escape_value_plain hs]
        simp [indentOf]
      simp only [List.map_cons, h1, List.flatten_cons]
      rw [ih (fun q hq => h q (List.mem_cons_of_mem _ hq))]
      rfl
    | arr a => simp [plainEntryB] at hpe
    | object o => simp [plainEntryB] at hpe
    | objectArray os => simp [plainEntryB] at hpe

theorem plainEntry_dest {p : Str × ConlValue} (h : plainEntryB p = true) :
    plainTokB p.1 = true ∧ ∃ s, p.2 = .str s ∧ plainTokB s = true := by
  obtain ⟨k, v⟩ := p
  cases v with
  | str s =>
    simp [plainEntryB] at h
    exact ⟨h.1, s, rfl, h.2⟩
  | arr a => simp [plainEntryB] at h
  | object o => simp [plainEntryB] at h
  | objectArray os => simp [plainEntryB] at h

/-- **C1** (amended).  Round trip for the supported fragment: for every flat
table binding plain keys to plain scalar values (nonempty, no whitespace,
none of `"`, `;`, `=`), parsing the serialized text returns exactly the
table.  The unamended claim fails as soon as a scalar needs quoting, because
the parser stores the quoted text verbatim (see the counterexample). -/
theorem c1_roundtrip_plain_scalars (t : ConlTable) (hsort : SortedKeys t)
    (hplain : ∀ p ∈ t, plainEntryB p = true) :
    parse_conl (String.mk (serialize_conl t)) = .ok t := by
  unfold parse_conl
  congr 1
  show parseLoop [] (linesL (serialize_conl t)) = t
  by_cases ht : t = []
  · subst ht
    have h1 : linesL (serialize_conl []) = [[]] := rfl
    rw [h1, parseLoop]
    rw [if_pos (by rfl)]
    rw [parseLoop]
  · have hclean : ∀ l ∈ t.map plainScalarLine, '\n' ∉ l ∧ '\r' ∉ l := by
      intro l hl
      obtain ⟨p, hp, rfl⟩ := List.mem_map.mp hl
      obtain ⟨hk, s, hv, hs⟩ := plainEntry_dest (hplain p hp)
      have : plainScalarLine p = p.1 ++ " = ".data ++ s := by
        simp [plainScalarLine, hv]
      rw [this]
      exact plain_line_no_nl hk hs
    rw [serialize_conl_scalar_table t hplain]
    rw [linesL_join (by simpa using ht)
      (fun l hl => ⟨(hclean l hl).1,
        fun hc => (hclean l hl).2 (List.mem_of_mem_getLast? hc)⟩)]
    rw [parseLoop_scalar_table t [] hplain]
    rw [foldl_alInsert_eq_append t []
      (by simpa using List.chain'_iff_pairwise.mp hsort)]
    simp

/-- **C1** witness: the amended round trip applied to the concrete table
with `name = Apples`. -/
theorem c1_roundtrip_witness :
    parse_conl (String.mk (serialize_conl [("name".data, ConlValue.str "Apples".data)]))
      = .ok [("name".data, ConlValue.str "Apples".data)] :=
  c1_roundtrip_plain_scalars [("name".data, ConlValue.str "Apples".data)]
    (by simp [SortedKeys]) (by decide)

/-- **C1** counterexample: `parse(serialize(v)) == v` fails for the table
`{k: "has;semicolon"}` — the serializer quotes the scalar, and the parser
hands the quoted text back verbatim, so the round trip returns a different
tree. -/
theorem c1_counterexample :
    parse_conl (String.mk (serialize_conl
        [("k".data, ConlValue.str "has;semicolon".data)]))
      = .ok [("k".data, ConlValue.str "\"has;semicolon\"".data)] ∧
    parse_conl (String.mk (serialize_conl
        [("k".data, ConlValue.str "has;semicolon".data)]))
      ≠ .ok [("k".data, ConlValue.str "has;semicolon".data)] := by
  have heval : serialize_conl [("k".data, ConlValue.str "has;semicolon".data)]
      = "k = \"has;semicolon\"\n".data := by
    rw [serialize_conl]
    rw [List.map_cons, List.map_nil, serialize_value]
    simp [indentOf, escape_value, replaceChar, joinLines]
  have hlines : linesL "k = \"has;semicolon\"\n".data
      = ["k = \"has;semicolon\"".data] := rfl
  have heq : parse_conl (String.mk (serialize_conl
        [("k".data, ConlValue.str "has;semicolon".data)]))
      = .ok [("k".data, ConlValue.str "\"has;semicolon\"".data)] := by
    rw [parse_conl, heval]
    congr 1
    show parseLoop [] (linesL "k = \"has;semicolon\"\n".data)
      = [("k".data, ConlValue.str "\"has;semicolon\"".data)]
    rw [hlines, parseLoop]
    simp +decide [trimL, splitOnceL, List.isPrefixOf, alInsert, parseLoop]
  refine ⟨heq, fun h => ?_⟩
  have h2 := Except.ok.inj (heq.symm.trans h)
  simp only [List.cons.injEq, Prod.mk.injEq, ConlValue.str.injEq] at h2
  exact absurd h2.1.2 (by decide)

/-! ### Claim C2: scalar escaping -/

theorem singleton_isPrefixOf_iff (c : Char) (s : Str) :
    [c].isPrefixOf s = true ↔ s.head? = some c := by
  cases s with
  | nil => simp [List.isPrefixOf]
  | cons a as =>
    simp [List.isPrefixOf]
    exact eq_comm

theorem singleton_isSuffixOf_iff (c : Char) (s : Str) :
    [c].isSuffixOf s = true ↔ s.getLast? = some c := by
  rw [List.isSuffixOf]
  have : ([c].reverse : Str) = [c] := rfl
  rw [this, singleton_isPrefixOf_iff, List.head?_reverse]

/-- The quoting condition of `escape_value`, as the claim words it. -/
def needsQuoting (s : Str) : Prop :=
  s = [] ∨ s.head? = some ' ' ∨ s.getLast? = some ' ' ∨ s.head? = some '"'
    ∨ ';' ∈ s ∨ '=' ∈ s ∨ '\n' ∈ s ∨ '\r' ∈ s

theorem needsQuoting_iff (s : Str) :
    needsQuoting s ↔
      (s.isEmpty || [' '].isPrefixOf s || [' '].isSuffixOf s || ['"'].isPrefixOf s
        || s.contains ';' || s.contains '=' || s.contains '\n' || s.contains '\r') = true := by
  simp only [needsQuoting, Bool.or_eq_true, List.isEmpty_iff,
    singleton_isPrefixOf_iff, singleton_isSuffixOf_iff, List.elem_iff, or_assoc]

/-- **C2**: `escape_value` quotes-and-escapes exactly when the string is
empty, starts or ends with a space, starts with `"`, or contains `;`, `=`,
a newline or a carriage return; every other string is emitted unchanged; and
the claim's concrete examples. -/
theorem c2_escape_value :
    (∀ s : Str, needsQuoting s →
      escape_value s =
        '"' :: replaceChar '\t' "\\t".data (replaceChar '\r' "\\r".data
          (replaceChar '\n' "\\n".data (replaceChar '"' "\\\"".data
            (replaceChar '\\' "\\\\".data s)))) ++ ['"']) ∧
    (∀ s : Str, ¬ needsQuoting s → escape_value s = s) ∧
    escape_value "hello".data = "hello".data ∧
    escape_value " leading".data = "\" leading\"".data ∧
    escape_value "trailing ".data = "\"trailing \"".data ∧
    escape_value "has;semicolon".data = "\"has;semicolon\"".data ∧
    escape_value "has=equals".data = "\"has=equals\"".data ∧
    escape_value "line\nbreak".data = "\"line\\nbreak\"".data := by
  refine ⟨fun s h => ?_, fun s h => ?_, by decide, by decide, by decide, by decide,
    by decide, by decide⟩
  · rw [escape_value, if_pos ((needsQuoting_iff s).mp h)]
  · rw [escape_value, if_neg]
    intro hc
    exact h ((needsQuoting_iff s).mpr hc)

/-- **C2** witness: the quoting branch at `a=b` and the verbatim branch at
`plain`. -/
theorem c2_escape_value_witness :
    escape_value "a=b".data =
      '"' :: replaceChar '\t' "\\t".data (replaceChar '\r' "\\r".data
        (replaceChar '\n' "\\n".data (replaceChar '"' "\\\"".data
          (replaceChar '\\' "\\\\".data "a=b".data)))) ++ ['"'] ∧
    escape_value "plain".data = "plain".data :=
  ⟨c2_escape_value.1 "a=b".data (by simp [needsQuoting]),
   c2_escape_value.2.1 "plain".data (by simp [needsQuoting])⟩

/-! ### Claim C8: the `forever` default of the schema mapping -/

/-- **C8**: when `forever` is absent from the parsed table the loaded flag
defaults to `true`; when it is present as a scalar `s` the flag is `true`
exactly when `s = "true"`. -/
theorem c8_forever_default (data : ConlTable) (s : Str) :
    (lookupTable data "forever".data = none → loadStampForever data = true) ∧
    (lookupTable data "forever".data = some (.str s) →
      (loadStampForever data = true ↔ s = "true".data)) := by
  constructor
  · intro h
    simp [loadStampForever, h]
  · intro h
    simp [loadStampForever, h, ConlValue.as_str]

/-- **C8** witness: the default branch on the empty table, and the
comparison branch on tables storing `"true"` and `"false"`. -/
theorem c8_forever_default_witness :
    loadStampForever [] = true ∧
    (loadStampForever [("forever".data, ConlValue.str "true".data)] = true
      ↔ ("true".data : Str) = "true".data) ∧
    (loadStampForever [("forever".data, ConlValue.str "false".data)] = true
      ↔ ("false".data : Str) = "true".data) :=
  ⟨(c8_forever_default [] []).1 rfl,
   (c8_forever_default [("forever".data, ConlValue.str "true".data)] "true".data).2 rfl,
   (c8_forever_default [("forever".data, ConlValue.str "false".data)] "false".data).2 rfl⟩

/-! ### Claim C9: the parser always returns `Ok` -/

/-- **C9**: parsing is total and never produces an error value: every input
yields `Ok`, and a top-level line that trims to an array-item shape (`=`
first, no ` = ` separator) is silently skipped, parsing continuing with the
rest. -/
theorem c9_parser_total_ok :
    (∀ content : String, ∃ t, parse_conl content = .ok t) ∧
    (∀ (acc : ConlTable) (l : Str) (ls : List Str),
      ¬ (trimL l).isEmpty = true →
      splitOnceL " = ".data (trimL l) = none →
      "=".data.isPrefixOf (trimL l) = true →
      parseLoop acc (l :: ls) = parseLoop acc ls) := by
  constructor
  · intro content
    exact ⟨_, rfl⟩
  · intro acc l ls h1 h2 h3
    rw [parseLoop, if_neg h1, h2]
    simp only [h3]
    rw [if_neg]
    simp

/-- **C9** witness: the skip step applied to the top-level array-item line
`= a`, and totality at that document. -/
theorem c9_parser_total_ok_witness :
    parseLoop [] ["= a".data] = parseLoop [] [] ∧
    ∃ t, parse_conl "= a" = .ok t :=
  ⟨c9_parser_total_ok.2 [] "= a".data [] (by decide) (by decide) (by decide),
   c9_parser_total_ok.1 "= a"⟩

/-! ### Claim C10: tables iterate in sorted key order -/

/-- **C10**: every successful parse yields a top-level table with strictly
ascending (lexicographic) keys, and every nested table anywhere in the tree
is likewise sorted — the iteration order of the `BTreeMap` model, not the
order keys appeared in the document. -/
theorem c10_tables_sorted (content : String) (t : ConlTable)
    (h : parse_conl content = .ok t) :
    SortedKeys t ∧ ∀ p ∈ t, AllSorted p.2 := by
  have hinv := parseLoop_inv [] (linesL content.data) ⟨List.chain'_nil, by simp⟩
  rw [parse_conl] at h
  exact (Except.ok.inj h) ▸ hinv

/-- **C10** witness: the document `b = 2, a = 1` parses to a table listing
`a` before `b`. -/
theorem c10_tables_sorted_witness :
    SortedKeys [("a".data, ConlValue.str "1".data), ("b".data, ConlValue.str "2".data)] ∧
    ∀ p ∈ [("a".data, ConlValue.str "1".data), ("b".data, ConlValue.str "2".data)],
      AllSorted p.2 := by
  have heval : parse_conl "b = 2\na = 1"
      = .ok [("a".data, ConlValue.str "1".data), ("b".data, ConlValue.str "2".data)] := by
    rw [parse_conl]
    congr 1
    have hlines : linesL "b = 2\na = 1".data = ["b = 2".data, "a = 1".data] := rfl
    rw [hlines]
    simp +decide [parseLoop, trimL, splitOnceL, List.isPrefixOf, alInsert, ltL]
  exact c10_tables_sorted "b = 2\na = 1" _ heval

/-! ### Claim C5 (and its correction): error behaviour on malformed input -/

/-- **C5** counterexample: the claim predicts a structural error for a
top-level `= foo` line and a lexical error for an unterminated quoted
scalar; the parser instead returns `Ok` in both cases (skipping the former
and storing the latter verbatim). -/
theorem c5_counterexample :
    parse_conl "= foo" = .ok [] ∧
    parse_conl "name = \"unterminated"
      = .ok [("name".data, ConlValue.str "\"unterminated".data)] := by
  constructor
  · rw [parse_conl]
    congr 1
    have hlines : linesL "= foo".data = ["= foo".data] := rfl
    rw [hlines]
    simp +decide [parseLoop, trimL, splitOnceL, List.isPrefixOf, containsSub]
  · rw [parse_conl]
    congr 1
    have hlines : linesL "name = \"unterminated".data = ["name = \"unterminated".data] := rfl
    rw [hlines]
    simp +decide [parseLoop, trimL, splitOnceL, List.isPrefixOf, alInsert]

/-- **C5** (amended): parsing malformed input never panics and never
produces an error either — the parser is total, returns `Ok` on every
input, and lines that match no recognized shape are skipped while parsing
continues with the remaining lines. -/
theorem c5_no_typed_errors :
    (∀ (content : String) (e : ConlError), parse_conl content ≠ .error e) ∧
    parse_conl "= zap\nkey = value" = .ok [("key".data, ConlValue.str "value".data)] := by
  constructor
  · intro content e h
    rw [parse_conl] at h
    exact Except.noConfusion h
  · rw [parse_conl]
    congr 1
    have hlines : linesL "= zap\nkey = value".data = ["= zap".data, "key = value".data] := rfl
    rw [hlines]
    simp +decide [parseLoop, trimL, splitOnceL, List.isPrefixOf, containsSub, alInsert]

/-- **C5** witness: no error value at a concrete malformed document. -/
theorem c5_no_typed_errors_witness :
    parse_conl "=" ≠ .error ⟨"malformed".data⟩ :=
  c5_no_typed_errors.1 "=" ⟨"malformed".data⟩

/-! ### Claim C4 (and its correction): scalar values are stored verbatim -/

/-- **C4** counterexample: the claim predicts that surrounding quotes are
removed and escapes decoded; the parser stores the quoted text verbatim. -/
theorem c4_counterexample :
    parse_conl "k = \"x\"" = .ok [("k".data, ConlValue.str "\"x\"".data)] ∧
    parse_conl "k = \"x\"" ≠ .ok [("k".data, ConlValue.str "x".data)] := by
  have heq : parse_conl "k = \"x\"" = .ok [("k".data, ConlValue.str "\"x\"".data)] := by
    rw [parse_conl]
    congr 1
    have hlines : linesL "k = \"x\"".data = ["k = \"x\"".data] := rfl
    rw [hlines]
    simp +decide [parseLoop, trimL, splitOnceL, List.isPrefixOf, alInsert]
  refine ⟨heq, fun h => ?_⟩
  have h2 := Except.ok.inj (heq.symm.trans h)
  simp only [List.cons.injEq, Prod.mk.injEq, ConlValue.str.injEq] at h2
  exact absurd h2.1.2 (by decide)

/-- **C4** (amended): for every `key = value` line whose value part does not
start with a triple quote, the parser stores the value as a `Scalar`
containing the trimmed text verbatim — no quote removal and no escape
decoding. -/
theorem c4_value_stored_verbatim (acc : ConlTable) (l : Str) (ls : List Str) (k v : Str)
    (h1 : ¬ (trimL l).isEmpty = true)
    (h2 : splitOnceL " = ".data (trimL l) = some (k, v))
    (h3 : "\"\"\"".data.isPrefixOf (trimL v) = false) :
    parseLoop acc (l :: ls) = parseLoop (alInsert (trimL k) (.str (trimL v)) acc) ls := by
  rw [parseLoop, if_neg h1, h2]
  dsimp only
  rw [if_neg (by simp [h3])]

/-- **C4** witness: the verbatim step applied to the line `k = "zz"`. -/
theorem c4_value_stored_verbatim_witness :
    parseLoop [] ["k = \"zz\"".data]
      = parseLoop (alInsert (trimL "k".data)
          (ConlValue.str (trimL "\"zz\"".data)) []) [] :=
  c4_value_stored_verbatim [] "k = \"zz\"".data [] "k".data "\"zz\"".data
    (by decide) (by decide) (by decide)

/-! ### Claim C3 (and its correction): bare-key disambiguation -/

/-- **C3** counterexample: the claim says the first *non-blank* child line
decides the block's shape, so `key`, a blank line, then `  = a` should parse
as `Array(["a"])`; the parser looks only at the immediate next line (the
blank one), so it parses the block as a nested table instead. -/
theorem c3_counterexample :
    parse_conl "key\n\n  = a"
      = .ok [("key".data, ConlValue.object [("= a".data, ConlValue.arr [])])] ∧
    parse_conl "key\n\n  = a"
      ≠ .ok [("key".data, ConlValue.arr ["a".data])] := by
  have heq : parse_conl "key\n\n  = a"
      = .ok [("key".data, ConlValue.object [("= a".data, ConlValue.arr [])])] := by
    rw [parse_conl]
    congr 1
    have hlines : linesL "key\n\n  = a".data = ["key".data, [], "  = a".data] := rfl
    rw [hlines]
    simp +decide [parseLoop, parseBareKey, is_array_look, is_object_array_look,
      objectLoop, nestedArrLoop, trimL, splitOnceL, stripPrefixL, List.isPrefixOf,
      containsSub, alInsert]
  refine ⟨heq, fun h => ?_⟩
  have h2 := Except.ok.inj (heq.symm.trans h)
  simp only [List.cons.injEq, Prod.mk.injEq] at h2
  exact ConlValue.noConfusion h2.1.2

/-- **C3** (amended): the shape of the *immediately following* line (trimmed,
regardless of indentation or blankness) fixes the interpretation of a
bare-key block: a lone `=` gives a table-array, a `= value` shape gives an
array of scalars, anything else gives a nested table; the claim's two
concrete examples hold. -/
theorem c3_lookahead_decides :
    (∀ ls : List Str, is_object_array_look ls = true →
      ∃ os rest, parseBareKey ls = (ConlValue.objectArray os, rest)) ∧
    (∀ ls : List Str, is_object_array_look ls = false → is_array_look ls = true →
      ∃ a rest, parseBareKey ls = (ConlValue.arr a, rest)) ∧
    (∀ ls : List Str, is_array_look ls = false →
      ∃ o rest, parseBareKey ls = (ConlValue.object o, rest)) ∧
    parse_conl "key\n  = a\n  = b"
      = .ok [("key".data, ConlValue.arr ["a".data, "b".data])] ∧
    parse_conl "key\n  =\n    title = x"
      = .ok [("key".data, ConlValue.objectArray [[("title".data, ConlValue.str "x".data)]])] := by
  refine ⟨fun ls h => ?_, fun ls h1 h2 => ?_, fun ls h => ?_, ?_, ?_⟩
  · rw [parseBareKey, if_pos h]
    exact ⟨_, _, rfl⟩
  · rw [parseBareKey, if_neg (by simp [h1]), if_pos h2]
    exact ⟨_, _, rfl⟩
  · have hoa : is_object_array_look ls = false := by
      cases ls with
      | nil => rfl
      | cons nl rest =>
        simp [is_array_look] at h
        simp [is_object_array_look, h.2]
    rw [parseBareKey, if_neg (by simp [hoa]), if_neg (by simp [h])]
    exact ⟨_, _, rfl⟩
  · rw [parse_conl]
    congr 1
    have hlines : linesL "key\n  = a\n  = b".data
        = ["key".data, "  = a".data, "  = b".data] := rfl
    rw [hlines]
    simp +decide [parseLoop, parseBareKey, is_array_look, is_object_array_look,
      arrLoop, trimL, splitOnceL, stripPrefixL, List.isPrefixOf, containsSub, alInsert]
  · rw [parse_conl]
    congr 1
    have hlines : linesL "key\n  =\n    title = x".data
        = ["key".data, "  =".data, "    title = x".data] := rfl
    rw [hlines]
    simp +decide [parseLoop, parseBareKey, is_array_look, is_object_array_look,
      objArrayLoop, objFieldsLoop, trimL, splitOnceL, stripPrefixL, List.isPrefixOf,
      containsSub, alInsert]

/-- **C3** witness: the three lookahead branches applied to concrete
following lines. -/
theorem c3_lookahead_decides_witness :
    (∃ os rest, parseBareKey ["  =".data] = (ConlValue.objectArray os, rest)) ∧
    (∃ a rest, parseBareKey ["  = a".data] = (ConlValue.arr a, rest)) ∧
    (∃ o rest, parseBareKey ["  x = y".data] = (ConlValue.object o, rest)) :=
  ⟨c3_lookahead_decides.1 ["  =".data] (by decide),
   c3_lookahead_decides.2.1 ["  = a".data] (by decide) (by decide),
   c3_lookahead_decides.2.2.1 ["  x = y".data] (by decide)⟩

/-! ### Claim C6: multi-line emission -/

theorem splitInclNl_mem_shape : ∀ {s : Str} {l : Str}, l ∈ splitInclNl s →
    ∃ q, '\n' ∉ q ∧ (l = q ∨ l = q ++ ['\n']) := by
  intro s
  induction s with
  | nil =>
    intro l hl
    simp [splitInclNl] at hl
  | cons c cs ih =>
    intro l hl
    by_cases hc : c = '\n'
    · simp only [splitInclNl, if_pos hc] at hl
      rcases List.mem_cons.mp hl with hl | hl
      · exact ⟨[], by simp, Or.inr hl⟩
      · exact ih hl
    · simp only [splitInclNl, if_neg hc] at hl
      cases hps : splitInclNl cs with
      | nil =>
        rw [hps] at hl
        simp at hl
        refine ⟨[c], ?_, Or.inl hl⟩
        simp
        exact fun h => hc h.symm
      | cons p ps =>
        rw [hps] at hl
        rcases List.mem_cons.mp hl with hl | hl
        · obtain ⟨q, hq, hpq⟩ := ih (hps ▸ List.mem_cons_self p ps)
          subst hl
          refine ⟨c :: q, ?_, ?_⟩
          · intro hmem
            rcases List.mem_cons.mp hmem with h | h
            · exact hc h.symm
            · exact hq h
          · rcases hpq with hpq | hpq
            · exact Or.inl (by rw [hpq])
            · exact Or.inr (by rw [hpq]; rfl)
        · exact ih (hps ▸ List.mem_cons_of_mem p hl)

theorem splitInclNl_mem_subset : ∀ {s : Str} {l : Str},
    l ∈ splitInclNl s → ∀ c ∈ l, c ∈ s := by
  intro s
  induction s with
  | nil =>
    intro l hl
    simp [splitInclNl] at hl
  | cons a cs ih =>
    intro l hl
    by_cases hc : a = '\n'
    · simp only [splitInclNl, if_pos hc] at hl
      rcases List.mem_cons.mp hl with hl | hl
      · subst hl
        intro c hcl
        simp at hcl
        simp [hcl, hc]
      · exact fun c hcl => List.mem_cons_of_mem a (ih hl c hcl)
    · simp only [splitInclNl, if_neg hc] at hl
      cases hps : splitInclNl cs with
      | nil =>
        rw [hps] at hl
        simp at hl
        subst hl
        intro c hcl
        simp at hcl
        simp [hcl]
      | cons p ps =>
        rw [hps] at hl
        rcases List.mem_cons.mp hl with hl | hl
        · subst hl
          intro c hcl
          rcases List.mem_cons.mp hcl with h | h
          · simp [h]
          · exact List.mem_cons_of_mem a
              (ih (hps ▸ List.mem_cons_self p ps) c h)
        · exact fun c hcl => List.mem_cons_of_mem a
            (ih (hps ▸ List.mem_cons_of_mem p hl) c hcl)

theorem rustLineMap_subset {p : Str} : ∀ c ∈ rustLineMap p, c ∈ p := by
  intro c hc
  rw [rustLineMap] at hc
  split at hc
  · split at hc
    · exact List.dropLast_subset _ (List.dropLast_subset _ hc)
    · exact List.dropLast_subset _ hc
  · exact hc

theorem linesL_mem_no_nl {s : Str} {l : Str} (hl : l ∈ linesL s) : '\n' ∉ l := by
  unfold linesL at hl
  obtain ⟨p, hp, hpl⟩ := List.mem_map.mp hl
  obtain ⟨q, hq, hpq⟩ := splitInclNl_mem_shape hp
  subst hpl
  rcases hpq with hpq | hpq
  · subst hpq
    rw [rustLineMap, if_neg]
    · exact hq
    · intro hlast
      exact hq (List.mem_of_mem_getLast? hlast)
  · subst hpq
    rw [rustLineMap, if_pos (by rw [List.getLast?_concat]), List.dropLast_concat]
    split
    · exact fun h => hq (List.dropLast_subset _ h)
    · exact hq

theorem linesL_mem_subset {s : Str} {l : Str} (hl : l ∈ linesL s) : ∀ c ∈ l, c ∈ s := by
  unfold linesL at hl
  obtain ⟨p, hp, hpl⟩ := List.mem_map.mp hl
  subst hpl
  exact fun c hc => splitInclNl_mem_subset hp c (rustLineMap_subset c hc)

theorem head?_dropWhile_false {p : Char → Bool} :
    ∀ {l : Str} {c : Char}, (l.dropWhile p).head? = some c → p c = false := by
  intro l
  induction l with
  | nil => intro c h; simp [List.dropWhile] at h
  | cons a as ih =>
    intro c h
    rw [List.dropWhile_cons] at h
    by_cases hp : p a = true
    · rw [if_pos hp] at h
      exact ih h
    · rw [if_neg hp] at h
      injection h with h
      subst h
      simpa using hp

theorem trimL_getLast_not_ws {l : Str} {c : Char}
    (h : (trimL l).getLast? = some c) : isRustWhitespace c = false := by
  unfold trimL at h
  rw [List.getLast?_reverse] at h
  exact head?_dropWhile_false h

theorem trimL_subset {l : Str} : ∀ c ∈ trimL l, c ∈ l := by
  intro c hc
  unfold trimL at hc
  rw [List.mem_reverse] at hc
  have h1 := (List.dropWhile_sublist isRustWhitespace).subset hc
  rw [List.mem_reverse] at h1
  exact (List.dropWhile_sublist isRustWhitespace).subset h1

theorem flatten_terminated : ∀ {ps : List Str}, ps ≠ [] →
    (ps.map (fun p => p ++ ['\n'])).flatten = joinLines ps ++ ['\n']
  | [], h => absurd rfl h
  | [p], _ => by simp [joinLines]
  | p :: p2 :: rest, _ => by
    have ih := @flatten_terminated (p2 :: rest) (by simp)
    simp only [List.map_cons, List.flatten_cons] at ih ⊢
    rw [ih]
    simp [joinLines]

theorem indent_mem_space {n : Nat} {c : Char}
    (h : c ∈ (List.replicate n "  ".data).flatten) : c = ' ' := by
  rw [List.mem_flatten] at h
  obtain ⟨x, hx, hcx⟩ := h
  rw [List.mem_replicate] at hx
  rw [hx.2] at hcx
  rcases List.mem_cons.mp hcx with h | h
  · exact h
  · simpa using h

/-- **C6** counterexample: the claim says blank source lines are emitted as
completely empty lines; `format_multiline` in `src/conl_ser.rs` emits a
blank source line as a line of two spaces. -/
theorem c6_counterexample :
    format_multiline "a\n\nb".data (some "md".data) = "\"\"\"md\n  a\n  \n  b\n".data ∧
    format_multiline "a\n\nb".data (some "md".data) ≠ "\"\"\"md\n  a\n\n  b\n".data := by
  constructor
  · decide
  · decide

theorem flatten_map_term (g f : Str → Str) (hgf : ∀ l, g l = f l ++ ['\n']) :
    ∀ (ls : List Str) (op : Str),
      (op ++ ['\n']) ++ (ls.map g).flatten = joinLines (op :: ls.map f) ++ ['\n']
  | [], op => by simp [joinLines]
  | l :: rest, op => by
    have ih := flatten_map_term g f hgf rest (f l)
    simp only [List.map_cons, List.flatten_cons]
    rw [hgf l]
    have hjoin : joinLines (op :: f l :: rest.map f)
        = op ++ '\n' :: joinLines (f l :: rest.map f) := rfl
    rw [hjoin]
    simp only [List.append_assoc, List.cons_append]
    rw [← ih]
    simp

/-- **C6** (amended): the generator-side `format_multiline_text` emits the
opener `"""md` followed by each source line of the trailing-trimmed text,
blank lines as completely empty lines and other lines as the indent string
plus the trimmed line; the serializer-side `format_multiline` instead
indents every line, blank lines included, by two spaces after its
`"""hint` opener. -/
theorem c6_multiline_lines :
    (∀ (text : Str) (indent : Nat),
      linesL (format_multiline_text text indent) =
        "\"\"\"md".data :: (linesL (trimEndL text)).map (fun line =>
          if (trimL line).isEmpty then []
          else (List.replicate indent "  ".data).flatten ++ trimL line)) ∧
    (∀ (s hint : Str), '\n' ∉ hint → '\r' ∉ hint → '\r' ∉ s →
      linesL (format_multiline s (some hint)) =
        ("\"\"\"".data ++ hint) :: (linesL s).map (fun line => "  ".data ++ line)) := by
  constructor
  · intro text indent
    have hrw : format_multiline_text text indent
        = joinLines ("\"\"\"md".data :: (linesL (trimEndL text)).map (fun line =>
            if (trimL line).isEmpty then []
            else (List.replicate indent "  ".data).flatten ++ trimL line)) ++ ['\n'] := by
      rw [format_multiline_text]
      rw [show ("\"\"\"md\n".data : Str) = "\"\"\"md".data ++ ['\n'] by decide]
      rw [flatten_map_term
        (fun line => if (trimL line).isEmpty then ['\n']
          else (List.replicate indent "  ".data).flatten ++ trimL line ++ ['\n'])
        (fun line => if (trimL line).isEmpty then []
          else (List.replicate indent "  ".data).flatten ++ trimL line)
        (fun l => by by_cases hb : (trimL l).isEmpty <;> simp [hb])]
    rw [hrw]
    apply linesL_join (by simp)
    intro l hl
    rcases List.mem_cons.mp hl with hl | hl
    · subst hl
      exact ⟨by decide, by decide⟩
    · obtain ⟨line, hline, hpl⟩ := List.mem_map.mp hl
      subst hpl
      by_cases hb : (trimL line).isEmpty
      · simp [hb]
      · rw [if_neg hb]
        constructor
        · intro hmem
          rcases List.mem_append.mp hmem with h | h
          · exact absurd (indent_mem_space h) (by decide)
          · exact linesL_mem_no_nl hline (trimL_subset _ h)
        · intro hlast
          have htne : trimL line ≠ [] := by
            simpa using hb
          obtain ⟨c, hc⟩ := Option.ne_none_iff_exists'.mp
            (fun hnone => htne (List.getLast?_eq_none_iff.mp hnone))
          rw [List.getLast?_append, hc] at hlast
          simp at hlast
          rw [hlast] at hc
          have := trimL_getLast_not_ws hc
          exact absurd this (by decide)
  · intro s hint hn hr hrs
    have hrw : format_multiline s (some hint)
        = joinLines (("\"\"\"".data ++ hint) :: (linesL s).map (fun line => "  ".data ++ line))
            ++ ['\n'] := by
      rw [format_multiline]
      rw [show (some hint).getD [] = hint from rfl]
      simp only [← List.append_assoc]
      rw [flatten_map_term
        (fun line => ("  ".data ++ line) ++ ['\n'])
        (fun line => "  ".data ++ line)
        (fun l => rfl)]
    rw [hrw]
    apply linesL_join (by simp)
    intro l hl
    rcases List.mem_cons.mp hl with hl | hl
    · subst hl
      constructor
      · intro hmem
        rcases List.mem_append.mp hmem with h | h
        · exact absurd h (by decide)
        · exact hn h
      · intro hlast
        have := List.mem_of_mem_getLast? hlast
        rcases List.mem_append.mp this with h | h
        · exact absurd h (by decide)
        · exact hr h
    · obtain ⟨line, hline, hpl⟩ := List.mem_map.mp hl
      subst hpl
      constructor
      · intro hmem
        rcases List.mem_append.mp hmem with h | h
        · exact absurd h (by decide)
        · exact linesL_mem_no_nl hline h
      · intro hlast
        have := List.mem_of_mem_getLast? hlast
        rcases List.mem_append.mp this with h | h
        · exact absurd h (by decide)
        · exact hrs (linesL_mem_subset hline _ h)

/-- **C6** witness: the `format_multiline` characterization applied to the
text `a`, blank, `b` with hint `md`, all hypotheses discharged. -/
theorem c6_multiline_lines_witness :
    linesL (format_multiline "a\n\nb".data (some "md".data)) =
      ("\"\"\"".data ++ "md".data) :: (linesL "a\n\nb".data).map (fun line => "  ".data ++ line) :=
  c6_multiline_lines.2 "a\n\nb".data "md".data (by decide) (by decide) (by decide)

/-! ### Claim C7: trailing-newline discipline of `to_conl` -/

/-- `s` ends with exactly one LF: its last character is a newline and the
character before it is not. -/
abbrev oneTrailingNl (s : Str) : Prop :=
  s.reverse.head? = some '\n' ∧ s.reverse.tail.head? ≠ some '\n'

/-- An optional raw-emitted field contains no newline. -/
def optNoNl : Option Str → Prop
  | none => True
  | some s => '\n' ∉ s

/-- The fields that `to_conl` emits without escaping contain no newline
character (escaped fields need no such hypothesis). -/
def CleanRawFields (m : StampMetadata) : Prop :=
  optNoNl m.issue_date ∧ optNoNl m.rate ∧ optNoNl m.background_color ∧
    (∀ i ∈ m.stamp_images, '\n' ∉ i) ∧ optNoNl m.sheet_image ∧
    (∀ p ∈ m.products, optNoNl p.postal_store_url ∧ optNoNl p.stamps_forever_url ∧
      ∀ i ∈ p.images, '\n' ∉ i)

/-- A line that is nonempty and contains no newline. -/
def lineClean (l : Str) : Prop := l ≠ [] ∧ '\n' ∉ l

theorem optLine_mem {α : Type} {o : Option α} {f : α → Str} {l : Str}
    (hl : l ∈ optLine o f) : ∃ x, o = some x ∧ l = f x := by
  cases o with
  | none => simp [optLine] at hl
  | some x =>
    simp [optLine] at hl
    exact ⟨x, rfl, hl⟩

theorem replaceChar_self_not_mem {c : Char} {rep : Str} (h : c ∉ rep) :
    ∀ s : Str, c ∉ replaceChar c rep s := by
  intro s
  induction s with
  | nil => simp [replaceChar]
  | cons x xs ih =>
    rw [replaceChar]
    split
    · intro hmem
      rcases List.mem_append.mp hmem with hm | hm
      · exact h hm
      · exact ih hm
    · intro hmem
      rcases List.mem_cons.mp hmem with hm | hm
      · rename_i hx
        exact hx (hm ▸ rfl)
      · exact ih hm

theorem replaceChar_not_mem {x d : Char} {rep : Str} {s : Str}
    (h1 : x ∉ s) (h2 : x ∉ rep) : x ∉ replaceChar d rep s := by
  induction s with
  | nil => simp [replaceChar]
  | cons a as ih =>
    have hxa : x ≠ a := fun hc => h1 (hc ▸ List.mem_cons_self a as)
    have h1' : x ∉ as := fun hc => h1 (List.mem_cons_of_mem a hc)
    rw [replaceChar]
    split
    · intro hmem
      rcases List.mem_append.mp hmem with hm | hm
      · exact h2 hm
      · exact ih h1' hm
    · intro hmem
      rcases List.mem_cons.mp hmem with hm | hm
      · exact hxa hm
      · exact ih h1' hm

theorem escape_value_no_nl (s : Str) : '\n' ∉ escape_value s := by
  rw [escape_value]
  split
  · intro hmem
    rcases List.mem_cons.mp hmem with hm | hm
    · exact absurd hm (by decide)
    rcases List.mem_append.mp hm with hm | hm
    · refine absurd hm (replaceChar_not_mem ?_ (by decide))
      refine replaceChar_not_mem ?_ (by decide)
      refine replaceChar_self_not_mem (by decide) _
    · exact absurd hm (by decide)
  · rename_i hcond
    intro hmem
    apply hcond
    simp only [Bool.or_eq_true]
    exact Or.inl (Or.inr (List.elem_eq_true_of_mem hmem))

theorem escape_value_ne_nil (s : Str) : escape_value s ≠ [] := by
  rw [escape_value]
  split
  · simp
  · rename_i hcond
    intro hc
    exact hcond (by simp [hc])

theorem digitChar_ne_nl {m : Nat} (h : m < 10) : Nat.digitChar m ≠ '\n' := by
  interval_cases m <;> decide

theorem toDigitsCore_no_nl :
    ∀ (fuel n : Nat) (acc : List Char), (∀ c ∈ acc, c ≠ '\n') →
      ∀ c ∈ Nat.toDigitsCore 10 fuel n acc, c ≠ '\n' := by
  intro fuel
  induction fuel with
  | zero =>
    intro n acc hacc c hc
    rw [Nat.toDigitsCore] at hc
    exact hacc c hc
  | succ fuel ih =>
    intro n acc hacc c hc
    rw [Nat.toDigitsCore] at hc
    have hd : Nat.digitChar (n % 10) ≠ '\n' :=
      digitChar_ne_nl (Nat.mod_lt n (by norm_num))
    by_cases hz : n / 10 = 0
    · rw [if_pos hz] at hc
      rcases List.mem_cons.mp hc with hm | hm
      · exact hm ▸ hd
      · exact hacc c hm
    · rw [if_neg hz] at hc
      refine ih (n / 10) _ ?_ c hc
      intro x hx
      rcases List.mem_cons.mp hx with hm | hm
      · exact hm ▸ hd
      · exact hacc x hm

theorem natRepr_no_nl (n : Nat) : '\n' ∉ (Nat.repr n).data := by
  have hrepr : (Nat.repr n).data = Nat.toDigits 10 n := rfl
  rw [hrepr, Nat.toDigits]
  intro hmem
  exact toDigitsCore_no_nl _ _ [] (by simp) '\n' hmem rfl

theorem rateType_as_str_no_nl (rt : RateType) : '\n' ∉ rt.as_str := by
  cases rt <;> decide

theorem stampType_as_str_no_nl (st : StampType) : '\n' ∉ st.as_str := by
  cases st <;> decide

theorem lineClean_pre_esc {pre x : Str} (hpre : pre ≠ []) (hpnl : '\n' ∉ pre) :
    lineClean (pre ++ escape_value x) := by
  constructor
  · intro hc
    exact hpre (List.append_eq_nil.mp hc).1
  · intro hmem
    rcases List.mem_append.mp hmem with h | h
    · exact hpnl h
    · exact escape_value_no_nl x h

theorem lineClean_pre_raw {pre x : Str} (hpre : pre ≠ []) (hpnl : '\n' ∉ pre)
    (hx : '\n' ∉ x) : lineClean (pre ++ x) := by
  constructor
  · intro hc
    exact hpre (List.append_eq_nil.mp hc).1
  · intro hmem
    rcases List.mem_append.mp hmem with h | h
    · exact hpnl h
    · exact hx h

theorem creditsLines_clean (c : Credits) : ∀ l ∈ creditsLines c, lineClean l := by
  intro l hl
  simp only [creditsLines, List.mem_append, or_assoc] at hl
  rcases hl with h | h | h | h | h | h <;>
  · obtain ⟨x, _, rfl⟩ := optLine_mem h
    exact lineClean_pre_esc (by decide) (by decide)

theorem productLines_clean (p : Product) (hpost : optNoNl p.postal_store_url)
    (hsf : optNoNl p.stamps_forever_url) (himg : ∀ i ∈ p.images, '\n' ∉ i) :
    ∀ l ∈ productLines p, lineClean l := by
  intro l hl
  simp only [productLines, List.mem_append, or_assoc] at hl
  rcases hl with h | h | h | h | h | h
  · rcases List.mem_cons.mp h with h | h
    · exact h ▸ ⟨by decide, by decide⟩
    · simp only [List.mem_singleton] at h
      exact h ▸ lineClean_pre_esc (by decide) (by decide)
  · obtain ⟨x, _, rfl⟩ := optLine_mem h
    exact lineClean_pre_esc (by decide) (by decide)
  · obtain ⟨x, _, rfl⟩ := optLine_mem h
    exact lineClean_pre_esc (by decide) (by decide)
  · obtain ⟨x, hx, rfl⟩ := optLine_mem h
    rw [hx] at hpost
    exact lineClean_pre_raw (by decide) (by decide) hpost
  · obtain ⟨x, hx, rfl⟩ := optLine_mem h
    rw [hx] at hsf
    exact lineClean_pre_raw (by decide) (by decide) hsf
  · split at h
    · simp at h
    · rcases List.mem_cons.mp h with h | h
      · exact h ▸ ⟨by decide, by decide⟩
      · obtain ⟨img, himg2, rfl⟩ := List.mem_map.mp h
        exact lineClean_pre_raw (by decide) (by decide) (himg img himg2)

theorem productLines_ne_nil (p : Product) : productLines p ≠ [] := by
  rw [productLines]
  simp

theorem stampLines_clean (m : StampMetadata) (hf : CleanRawFields m)
    (habout : m.about = none) : ∀ l ∈ stampLines m, lineClean l := by
  obtain ⟨hid, hrate, hbg, himgs, hsheet, hprods⟩ := hf
  intro l hl
  simp only [stampLines, List.mem_append, or_assoc] at hl
  rcases hl with h | h | h | h | h | h | h | h | h | h | h | h | h | h
  · rcases List.mem_cons.mp h with h | h
    · exact h ▸ lineClean_pre_esc (by decide) (by decide)
    rcases List.mem_cons.mp h with h | h
    · exact h ▸ lineClean_pre_esc (by decide) (by decide)
    rcases List.mem_cons.mp h with h | h
    · exact h ▸ lineClean_pre_esc (by decide) (by decide)
    simp only [List.mem_singleton] at h
    exact h ▸ lineClean_pre_esc (by decide) (by decide)
  · obtain ⟨x, hx, rfl⟩ := optLine_mem h
    rw [hx] at hid
    exact lineClean_pre_raw (by decide) (by decide) hid
  · obtain ⟨x, _, rfl⟩ := optLine_mem h
    exact lineClean_pre_esc (by decide) (by decide)
  · obtain ⟨x, hx, rfl⟩ := optLine_mem h
    rw [hx] at hrate
    exact lineClean_pre_raw (by decide) (by decide) hrate
  · obtain ⟨x, _, rfl⟩ := optLine_mem h
    exact lineClean_pre_raw (by decide) (by decide) (rateType_as_str_no_nl x)
  · rcases List.mem_cons.mp h with h | h
    · refine h ▸ ⟨by simp, ?_⟩
      intro hmem
      rcases List.mem_append.mp hmem with h2 | h2
      · exact absurd h2 (by decide)
      · cases hfv : m.forever <;> rw [hfv] at h2 <;> exact absurd h2 (by decide)
    simp only [List.mem_singleton] at h
    refine h ▸ ⟨by simp, ?_⟩
    intro hmem
    rcases List.mem_append.mp hmem with h2 | h2
    · exact absurd h2 (by decide)
    · exact natRepr_no_nl m.year h2
  · split at h
    · simp only [List.mem_singleton] at h
      exact h ▸ lineClean_pre_raw (by decide) (by decide)
        (stampType_as_str_no_nl m.stamp_type)
    · simp at h
  · obtain ⟨x, _, rfl⟩ := optLine_mem h
    exact lineClean_pre_esc (by decide) (by decide)
  · obtain ⟨x, hx, rfl⟩ := optLine_mem h
    rw [hx] at hbg
    exact lineClean_pre_raw (by decide) (by decide) hbg
  · split at h
    · simp at h
    · rcases List.mem_cons.mp h with h | h
      · exact h ▸ ⟨by decide, by decide⟩
      · obtain ⟨img, himg2, rfl⟩ := List.mem_map.mp h
        exact lineClean_pre_raw (by decide) (by decide) (himgs img himg2)
  · obtain ⟨x, hx, rfl⟩ := optLine_mem h
    rw [hx] at hsheet
    exact lineClean_pre_raw (by decide) (by decide) hsheet
  · split at h
    · simp at h
    · rcases List.mem_cons.mp h with h | h
      · exact h ▸ ⟨by decide, by decide⟩
      · exact creditsLines_clean m.credits l h
  · rw [habout] at h
    simp [optLine] at h
  · split at h
    · simp at h
    · rcases List.mem_cons.mp h with h | h
      · exact h ▸ ⟨by decide, by decide⟩
      · obtain ⟨pl, hpl, hlpl⟩ := List.mem_flatten.mp h
        obtain ⟨p, hp, rfl⟩ := List.mem_map.mp hpl
        exact productLines_clean p (hprods p hp).1 (hprods p hp).2.1
          (hprods p hp).2.2 l hlpl

theorem joinLines_getLast? : ∀ {ls : List Str} {L : Str},
    ls.getLast? = some L → L ≠ [] → (joinLines ls).getLast? = L.getLast?
  | [], L, h, _ => by simp at h
  | [l], L, h, _ => by
    simp at h
    subst h
    rfl
  | l :: l2 :: rest, L, h, hne => by
    have h2 : (l2 :: rest).getLast? = some L := by
      rw [List.getLast?_cons_cons] at h
      exact h
    have ih := joinLines_getLast? h2 hne
    obtain ⟨c, hc⟩ : ∃ c, L.getLast? = some c := by
      cases hL : L.getLast? with
      | none => exact absurd (List.getLast?_eq_none_iff.mp hL) hne
      | some c => exact ⟨c, rfl⟩
    show (l ++ '\n' :: joinLines (l2 :: rest)).getLast? = L.getLast?
    rw [show ('\n' :: joinLines (l2 :: rest) : Str)
      = ['\n'] ++ joinLines (l2 :: rest) from rfl]
    rw [List.getLast?_append, List.getLast?_append, ih, hc]
    rfl

theorem oneTrailingNl_join {ls : List Str} (_hne : ls ≠ [])
    (hlast : ∃ L, ls.getLast? = some L ∧ lineClean L) :
    oneTrailingNl (joinLines ls ++ ['\n']) := by
  obtain ⟨L, hL, hLne, hLnl⟩ := hlast
  constructor
  · rw [List.reverse_append]
    rfl
  · rw [List.reverse_append]
    show ((joinLines ls).reverse).head? ≠ some '\n'
    rw [List.head?_reverse]
    rw [joinLines_getLast? hL hLne]
    intro hc
    exact hLnl (List.mem_of_mem_getLast? hc)

/-- **C7** (amended): `to_conl` is total, and its output ends with exactly
one trailing LF whenever the raw-emitted fields contain no newline and
either the `about` field is absent or the product list is nonempty; when
`about` is present and the product list is empty, the output instead ends
with two newlines (see the counterexample). -/
theorem c7_single_trailing_newline (m : StampMetadata) (hf : CleanRawFields m)
    (hcase : m.about = none ∨ m.products ≠ []) :
    oneTrailingNl (StampMetadata.to_conl m) := by
  rw [StampMetadata.to_conl]
  apply oneTrailingNl_join
  · simp [stampLines]
  · by_cases hp : m.products = []
    · have habout : m.about = none := by
        rcases hcase with h | h
        · exact h
        · exact absurd hp h
      have hclean := stampLines_clean m hf habout
      obtain ⟨L, hL⟩ : ∃ L, (stampLines m).getLast? = some L := by
        cases hg : (stampLines m).getLast? with
        | none =>
          exact absurd (List.getLast?_eq_none_iff.mp hg) (by simp [stampLines])
        | some L => exact ⟨L, rfl⟩
      exact ⟨L, hL, hclean L (List.mem_of_mem_getLast? hL)⟩
    · have hpe : m.products.isEmpty = false := by simpa using hp
      obtain ⟨hid, hrate, hbg, himgs, hsheet, hprods⟩ := hf
      obtain ⟨L, hsegL⟩ : ∃ L,
          ("products".data :: (m.products.map productLines).flatten).getLast? = some L := by
        cases hg : ("products".data :: (m.products.map productLines).flatten).getLast? with
        | none => exact absurd (List.getLast?_eq_none_iff.mp hg) (by simp)
        | some L => exact ⟨L, rfl⟩
      refine ⟨L, ?_, ?_⟩
      · simp only [stampLines, hpe, Bool.false_eq_true, if_false,
          List.getLast?_append, hsegL]
        rfl
      · have hmem := List.mem_of_mem_getLast? hsegL
        rcases List.mem_cons.mp hmem with h | h
        · exact h ▸ ⟨by decide, by decide⟩
        · obtain ⟨pl, hpl, hlpl⟩ := List.mem_flatten.mp h
          obtain ⟨p, hp2, rfl⟩ := List.mem_map.mp hpl
          exact productLines_clean p (hprods p hp2).1 (hprods p hp2).2.1
            (hprods p hp2).2.2 L hlpl

/-- A concrete metadata record whose only optional content is a multi-line
`about` text, with no products. -/
def aboutOnlyStamp : StampMetadata where
  name := "n".data
  slug := "s".data
  api_slug := "a".data
  url := "u".data
  year := 5
  issue_date := none
  issue_location := none
  rate := none
  rate_type := none
  extra_cost := none
  forever := true
  stamp_type := .stamp
  series := none
  stamp_images := []
  sheet_image := none
  background_color := none
  credits := ⟨none, none, none, none, none, none⟩
  about := some "x".data
  products := []

/-- **C7** counterexample: with `about` present and no products, the output
of `to_conl` ends with two newlines, not one — `format_multiline` already
terminates its text with LF and `to_conl` appends another. -/
theorem c7_counterexample :
    StampMetadata.to_conl aboutOnlyStamp
      = "name = n\nslug = s\napi_slug = a\nurl = u\nforever = true\nyear = 5\nabout = \"\"\"md\n  x\n\n".data ∧
    ¬ oneTrailingNl (StampMetadata.to_conl aboutOnlyStamp) := by
  constructor
  · decide
  · decide

/-- A concrete metadata record with neither `about` text nor products. -/
def plainStamp : StampMetadata where
  name := "n".data
  slug := "s".data
  api_slug := "a".data
  url := "u".data
  year := 5
  issue_date := none
  issue_location := none
  rate := none
  rate_type := none
  extra_cost := none
  forever := true
  stamp_type := .stamp
  series := none
  stamp_images := []
  sheet_image := none
  background_color := none
  credits := ⟨none, none, none, none, none, none⟩
  about := none
  products := []

/-- **C7** witness: a single trailing newline at a concrete record with no
`about` text. -/
theorem c7_single_trailing_newline_witness :
    oneTrailingNl (StampMetadata.to_conl plainStamp) :=
  c7_single_trailing_newline plainStamp
    ⟨trivial, trivial, trivial, by simp [plainStamp], trivial, by simp [plainStamp]⟩
    (Or.inl rfl)
